import Mathlib

/-!
Verification model of the crawler's temporal database layer
(`src/database/index.ts`). The underlying ordered store (the `level`
package, i.e. LevelDB) is modelled as a sorted association list of
string keys; byte-wise lexicographic key comparison is modelled on the
character code points (keys in this database are ASCII, where the
UTF-8 byte order used by LevelDB, the UTF-16 order used by JavaScript
string comparison, and the code-point order all agree). Payloads
(`Track` values) are opaque serialisable blobs and are modelled as
strings.
-/

namespace Crawler

/-- Equality of fallible results is decidable componentwise. -/
instance {ε α : Type} [DecidableEq ε] [DecidableEq α] : DecidableEq (Except ε α)
  | .error e, .error f => decidable_of_iff (e = f) (by simp)
  | .error _, .ok _ => isFalse (by simp)
  | .ok _, .error _ => isFalse (by simp)
  | .ok a, .ok b => decidable_of_iff (a = b) (by simp)

/-- Track payloads are opaque to this layer; they are modelled as plain
strings. -/
abbrev Track := String

/-- Byte-wise lexicographic strict order on character lists, as LevelDB
compares keys and as JavaScript compares strings (identical on ASCII). -/
def strLtL : List Char → List Char → Bool
  | [], [] => false
  | [], _ :: _ => true
  | _ :: _, [] => false
  | a :: as, b :: bs =>
    if a.toNat < b.toNat then true
    else if b.toNat < a.toNat then false
    else strLtL as bs

/-- Strict lexicographic order on strings. -/
def strLt (a b : String) : Bool := strLtL a.data b.data

/-- Lexicographic order on strings, total complement of `strLt`. -/
def strLe (a b : String) : Bool := !(strLt b a)

/-- Splitting of a character list on the separator character, with the
semantics of JavaScript `s.split("/")` (an empty string yields one empty
segment, adjacent separators yield empty segments). -/
def splitL : List Char → List String
  | [] => [""]
  | c :: cs =>
    if c = '/' then "" :: splitL cs
    else
      match splitL cs with
      | [] => [String.mk [c]]
      | s :: rest => String.mk (c :: s.data) :: rest

/-- JavaScript `id.split("/")`. -/
def jsSplit (s : String) : List String := splitL s.data

/-- Joining of segments with the separator, inverse of `splitL`. -/
def joinParts : List String → String
  | [] => ""
  | [s] => s
  | s :: rest => s ++ "/" ++ joinParts rest

/-- JavaScript truthiness of an optional string: `undefined` and the
empty string are falsy. -/
def truthy : Option String → Bool
  | none => false
  | some s => !(s = "")

/-- JavaScript template-literal rendering of a possibly-undefined
string. -/
def jsStr : Option String → String
  | none => "undefined"
  | some s => s

/-- Structured identifier of one stored Version: identity
`(chainId, address, tokenId)` plus the block number, all decimal /
hex strings as in the source `Datum` type. -/
structure Datum where
  chainId : String
  address : String
  tokenId : String
  blockNumber : String
deriving DecidableEq

/-- Result of destructuring a key in JavaScript: each field may be
`undefined` when the key has fewer than four segments. -/
structure DatumQ where
  chainId : Option String
  address : Option String
  tokenId : Option String
  blockNumber : Option String
deriving DecidableEq

/-- View of a fully-populated `Datum` as a `DatumQ`. -/
def Datum.toQ (d : Datum) : DatumQ :=
  ⟨some d.chainId, some d.address, some d.tokenId, some d.blockNumber⟩

/-- Return value of the query functions: parsed identifier plus payload. -/
structure ReturnValue where
  id : DatumQ
  value : Track
deriving DecidableEq

/-- Primary-index key construction (`DB.datumToKey`): identity fields
and raw decimal block number joined by the separator, empty segments for
missing fields. -/
def datumToKey (datum : DatumQ) : String :=
  (datum.chainId.getD "") ++ "/" ++ (datum.address.getD "") ++ "/" ++
    (datum.tokenId.getD "") ++ "/" ++ (datum.blockNumber.getD "")

/-- Primary-index key parsing (`DB.keyToDatum`): destructuring of the
separator-split segments; missing segments come back `undefined`,
surplus segments are ignored. -/
def keyToDatum (id : String) : DatumQ :=
  ⟨(jsSplit id)[0]?, (jsSplit id)[1]?, (jsSplit id)[2]?, (jsSplit id)[3]?⟩

/-- JavaScript `num.padStart(n, c)`. -/
def padStart (s : String) (n : Nat) (c : Char) : String :=
  String.mk (List.replicate (n - s.length) c) ++ s

/-- Block-number encoding (`DB.encodeNumber`): zero-left-pad to ten
characters, failing on inputs longer than ten characters. -/
def encodeNumber (num : String) : Except String String :=
  if num.length > 10 then
    .error "Database cannot encode number greater than 10 digits"
  else .ok (padStart num 10 '0')

/-- Little-endian decimal digit expansion, with explicit structural fuel
so that it reduces by kernel computation. -/
def digitsRevGo : Nat → Nat → List Char
  | 0, _ => []
  | fuel + 1, n =>
    if n < 10 then [Nat.digitChar n]
    else Nat.digitChar (n % 10) :: digitsRevGo fuel (n / 10)

/-- Canonical decimal rendering of a natural number (the behaviour of
JavaScript `Number.prototype.toString` on naturals). -/
def natToStr (n : Nat) : String := String.mk (digitsRevGo (n + 1) n).reverse

/-- Numeric value of a decimal digit list, folded most-significant
first, as JavaScript `Number` parses decimal strings. -/
def valD (l : List Char) : Nat :=
  l.foldl (fun acc c => acc * 10 + (c.toNat - 48)) 0

/-- Block-number decoding (`DB.decodeNumber`): `Number(num).toString()`.
On the digit strings this layer stores it strips leading zeros; the
empty string parses as zero and non-numeric input renders as `NaN`. -/
def decodeNumber (num : String) : String :=
  if num = "" then "0"
  else if num.data.all (fun c => c.isDigit) then natToStr (valD num.data)
  else "NaN"

/-- Change-index key construction (`DB.datumToChangeKey`): encoded block
number first, then the identity fields. Reading the block number off a
`DatumQ` with `undefined` fields faults, as the JavaScript would. -/
def datumToChangeKey (datum : DatumQ) : Except String String :=
  match datum.blockNumber with
  | none => .error "TypeError"
  | some bn =>
    match encodeNumber bn with
    | .error e => .error e
    | .ok ebn =>
      .ok (ebn ++ "/" ++ jsStr datum.chainId ++ "/" ++ jsStr datum.address ++
        "/" ++ jsStr datum.tokenId)

/-- Ordered key-value store (one LevelDB instance): an association list
kept sorted by key. -/
abbrev Store (V : Type) := List (String × V)

/-- Point write: insert at the sorted position, replacing an existing
entry with the same key. -/
def putE {V : Type} : Store V → String → V → Store V
  | [], k, v => [(k, v)]
  | (k', v') :: rest, k, v =>
    if strLt k k' then (k, v) :: (k', v') :: rest
    else if k = k' then (k, v) :: rest
    else (k', v') :: putE rest k v

/-- Point delete: removes the entry with the given key; a no-op when the
key is absent (LevelDB `del` never fails on a missing key). -/
def delE {V : Type} (s : Store V) (k : String) : Store V :=
  s.filter (fun p => p.1 ≠ k)

/-- Point lookup. -/
def lookupE {V : Type} (s : Store V) (k : String) : Option V :=
  (s.find? (fun p => p.1 = k)).map (fun p => p.2)

/-- Number of entries stored under a key. -/
def countKey {V : Type} (s : Store V) (k : String) : Nat :=
  (s.filter (fun p => p.1 = k)).length

/-- Forward-ordered range scan with inclusive byte-order bounds, as a
LevelDB iterator with `gte`/`lte` options. -/
def iterRange {V : Type} (s : Store V) (gte lte : String) : Store V :=
  s.filter (fun p => strLe gte p.1 && strLe p.1 lte)

/-- Sortedness invariant of a store: keys strictly increasing in byte
order. -/
abbrev sortedStore {V : Type} (s : Store V) : Prop :=
  List.Pairwise (fun p q => strLt p.1 q.1 = true) s

/-- JavaScript `a <= b` where `a` may be `undefined` (comparison with
`undefined` is false). -/
def jsLeOS : Option String → String → Bool
  | none, _ => false
  | some a, b => strLe a b

/-- JavaScript `a >= b` where `b` may be `undefined` (comparison with
`undefined` is false). -/
def jsGeSO : String → Option String → Bool
  | _, none => false
  | a, some b => strLe b a

/-- Identity prefix string of a parsed key, as computed inside
`DB.getMany` for the grouping comparison. -/
def pfxD (d : DatumQ) : String :=
  jsStr d.chainId ++ "/" ++ jsStr d.address ++ "/" ++ jsStr d.tokenId

/-- Identity prefix of a raw key. -/
def pfxK (k : String) : String := pfxD (keyToDatum k)

/-- Block-number segment of a raw key, rendered as JavaScript would. -/
def bnK (k : String) : String := jsStr (keyToDatum k).blockNumber

/-- Primary key of a fully-qualified version. -/
def mkKey (c a t bn : String) : String :=
  c ++ "/" ++ a ++ "/" ++ t ++ "/" ++ bn

/-- Latest-at-or-before-cutoff point query (`DB.getOne`): a reverse,
limit-1 range scan over the exact-identity prefix, with the upper bound
set to the cutoff block when one is given. -/
def getOne (lvl : Store Track) (datum : DatumQ) : Except String ReturnValue :=
  if truthy datum.chainId && truthy datum.address && truthy datum.tokenId &&
      truthy datum.blockNumber then
    let gte := jsStr datum.chainId ++ "/" ++ jsStr datum.address ++ "/" ++
      jsStr datum.tokenId ++ "/"
    let lte := jsStr datum.chainId ++ "/" ++ jsStr datum.address ++ "/" ++
      jsStr datum.tokenId ++ "/" ++ jsStr datum.blockNumber
    match (iterRange lvl gte lte).reverse with
    | (k, v) :: _ => .ok ⟨keyToDatum k, v⟩
    | [] => .error "LEVEL_NOT_FOUND"
  else if truthy datum.chainId && truthy datum.address && truthy datum.tokenId then
    let gte := jsStr datum.chainId ++ "/" ++ jsStr datum.address ++ "/" ++
      jsStr datum.tokenId ++ "/"
    let lte := jsStr datum.chainId ++ "/" ++ jsStr datum.address ++ "/" ++
      jsStr datum.tokenId ++ "/~"
    match (iterRange lvl gte lte).reverse with
    | (k, v) :: _ => .ok ⟨keyToDatum k, v⟩
    | [] => .error "LEVEL_NOT_FOUND"
  else .error "Insufficient parametrs provided to DB.getOne function"

/-- Grouping loop of `DB.getMany`: walks the remaining scan results,
tracking the previous parsed key and the pending result of the current
contiguous identity group; flushes the pending result when the group
prefix changes, and replaces it whenever an entry satisfies the cutoff. -/
def getManyLoop (till : String) :
    DatumQ → ReturnValue → List (String × Track) → List ReturnValue
  | _, result, [] =>
    if jsLeOS result.id.blockNumber till then [result] else []
  | lastId, result, (k, v) :: rest =>
    let id := keyToDatum k
    if pfxD lastId ≠ pfxD id then
      (if jsLeOS result.id.blockNumber till then [result] else []) ++
        getManyLoop till id ⟨id, v⟩ rest
    else if jsGeSO till id.blockNumber then
      getManyLoop till id ⟨id, v⟩ rest
    else
      getManyLoop till id result rest

/-- Grouped latest-at-or-before-cutoff query (`DB.getMany`): a forward
range scan over the chain-only or chain-plus-address prefix; throws when
the very first iterator step yields nothing. -/
def getMany (lvl : Store Track) (datum : DatumQ) :
    Except String (List ReturnValue) :=
  let tillBlockNumber :=
    if truthy datum.blockNumber then jsStr datum.blockNumber
    else "9007199254740991"
  let gte :=
    if truthy datum.address then
      jsStr datum.chainId ++ "/" ++ jsStr datum.address ++ "/"
    else jsStr datum.chainId ++ "/"
  let lte :=
    if truthy datum.address then
      jsStr datum.chainId ++ "/" ++ jsStr datum.address ++ "/~"
    else jsStr datum.chainId ++ "/~"
  match iterRange lvl gte lte with
  | [] => .error "Couldn't find any items for the given DB query"
  | (k, v) :: rest =>
    .ok (getManyLoop tillBlockNumber (keyToDatum k) ⟨keyToDatum k, v⟩ rest)

/-- Insertion-ordered map write, with the semantics of JavaScript
`Map.prototype.set`: an existing key keeps its position and gets the new
value, a fresh key is appended. -/
def mapSet (m : List (String × String)) (k v : String) :
    List (String × String) :=
  if m.any (fun p => p.1 = k) then
    m.map (fun p => if p.1 = k then (k, v) else p)
  else m ++ [(k, v)]

/-- Identity part rebuilt from a change-index key inside
`DB.getIdsChanged` (`${chainId}/${address}/${tokenId}` over the
destructured split, the change key storing the block number first). -/
def nidOfKey (k : String) : String :=
  jsStr (jsSplit k)[1]? ++ "/" ++ jsStr (jsSplit k)[2]? ++ "/" ++
    jsStr (jsSplit k)[3]?

/-- Fully-qualified primary key rebuilt from a change-index key inside
`DB.getIdsChanged` (identity plus the decoded block number). -/
def idOfKey (k : String) : String :=
  jsStr (jsSplit k)[1]? ++ "/" ++ jsStr (jsSplit k)[2]? ++ "/" ++
    jsStr (jsSplit k)[3]? ++ "/" ++ decodeNumber (jsStr (jsSplit k)[0]?)

/-- Changed-identities range query (`DB.getIdsChanged`): scans the
change index over the padded block window, collapsing repeated
identities through an insertion-ordered map keyed by the rebuilt
identity, and returns the collected fully-qualified keys. -/
def getIdsChanged (ci : Store String) (fromB : String) (toB : Option String) :
    Except String (List String) :=
  let toV := toB.getD fromB
  match encodeNumber fromB with
  | .error e => .error e
  | .ok ef =>
    match encodeNumber toV with
    | .error e => .error e
    | .ok et =>
      let entries := iterRange ci (ef ++ "/") (et ++ "/~")
      let m := entries.foldl
        (fun acc p => mapSet acc (nidOfKey p.1) (idOfKey p.1)) []
      .ok (m.map (fun p => p.2))

/-- Combined state of the two stores backing one `DB` instance. -/
structure DBState where
  level : Store Track
  changeIndex : Store String
deriving DecidableEq

/-- Single store write or delete performed by the mutation functions;
the effect list records the order of the underlying store operations. -/
inductive Eff where
  | putTrack (k : String) (v : Track)
  | putChange (k : String) (v : String)
  | delTrack (k : String)
  | delChange (k : String)
deriving DecidableEq

/-- Application of one store operation to the database state. -/
def applyEff (st : DBState) : Eff → DBState
  | .putTrack k v => { st with level := putE st.level k v }
  | .putChange k v => { st with changeIndex := putE st.changeIndex k v }
  | .delTrack k => { st with level := delE st.level k }
  | .delChange k => { st with changeIndex := delE st.changeIndex k }

/-- Store operations performed by `DB.insert`, in order: the primary
write always happens; the change-index write follows unless computing
the change key faults, which surfaces as the error component. -/
def insertOps (d : Datum) (data : Track) : List Eff × Option String :=
  match datumToChangeKey d.toQ with
  | .ok ck => ([.putTrack (datumToKey d.toQ) data, .putChange ck ""], none)
  | .error e => ([.putTrack (datumToKey d.toQ) data], some e)

/-- Mutation-coordinator insert (`DB.insert`): primary entry first, then
the change marker. -/
def insert (st : DBState) (d : Datum) (data : Track) : DBState × Option String :=
  ((insertOps d data).1.foldl applyEff st, (insertOps d data).2)

/-- Store operations performed by `DB.del`, in order. -/
def delOps (d : Datum) : List Eff × Option String :=
  match datumToChangeKey d.toQ with
  | .ok ck => ([.delTrack (datumToKey d.toQ), .delChange ck], none)
  | .error e => ([.delTrack (datumToKey d.toQ)], some e)

/-- Mutation-coordinator delete (`DB.del`): primary delete first, then
the change-marker delete. -/
def del (st : DBState) (d : Datum) : DBState × Option String :=
  ((delOps d).1.foldl applyEff st, (delOps d).2)

/-- Scanning loop of `DB.createChangeIndex`: walks the primary index in
key order, writing one change marker per stored version, counting the
markers written, and stopping with an error if a stored key fails to
re-encode. -/
def rebuildLoop :
    List (String × Track) → Store String → Nat → Store String × Except String Nat
  | [], ci, count => (ci, .ok count)
  | (k, _) :: rest, ci, count =>
    match datumToChangeKey (keyToDatum k) with
    | .error e => (ci, .error e)
    | .ok ck => rebuildLoop rest (putE ci ck "") (count + 1)

/-- Change-index rebuild (`DB.createChangeIndex`): full forward scan of
the primary index, emitting one marker per stored version. -/
def createChangeIndex (st : DBState) : Store String × Except String Nat :=
  rebuildLoop st.level st.changeIndex 0

/-- Slash-freeness of a key segment. -/
def slashFreeB (f : String) : Bool := f.data.all (fun c => c ≠ '/')

/-- Well-formedness of one identity field as stored in practice: it is
non-empty and starts below the tilde sentinel used as the scan upper
bound. -/
def fieldOK (f : String) : Bool :=
  match f.data with
  | [] => false
  | c :: _ => c.toNat < 126

/-- Well-formedness of a primary key: exactly four segments, usable
identity fields and a non-empty decimal block number. -/
def WFKeyB (k : String) : Bool :=
  match jsSplit k with
  | [c, a, t, bn] =>
    fieldOK c && fieldOK a && fieldOK t && bn ≠ "" &&
      bn.data.all (fun ch => ch.isDigit)
  | _ => false

/-- First-occurrence deduplication with an explicit seen-set, the key
order of a JavaScript `Map` built by repeated `set`. -/
def dedupFirstAux {α : Type} [DecidableEq α] : List α → List α → List α
  | _, [] => []
  | seen, a :: rest =>
    if a ∈ seen then dedupFirstAux seen rest
    else a :: dedupFirstAux (a :: seen) rest

/-- Value held by a JavaScript `Map` after all `set` calls for one key:
the value of the last pair carrying that key. -/
def lastValFor (pairs : List (String × String)) (k : String) : Option String :=
  ((pairs.filter (fun p => p.1 = k)).getLast?).map (fun p => p.2)

/-- Adjacent grouping of a list by a projection: maximal runs of equal
projection values. -/
def chunkBy {α : Type} (f : α → String) : List α → List (List α)
  | [] => []
  | a :: rest =>
    match chunkBy f rest with
    | [] => [[a]]
    | [] :: chs => [a] :: [] :: chs
    | (b :: ch) :: chs =>
      if f a = f b then (a :: b :: ch) :: chs
      else [a] :: (b :: ch) :: chs

/-- Replacement step of the `getMany` loop: an entry that satisfies the
cutoff becomes the pending result of its group. -/
def replStep (till : String) (r : ReturnValue) (e : String × Track) :
    ReturnValue :=
  if jsGeSO till (keyToDatum e.1).blockNumber then ⟨keyToDatum e.1, e.2⟩ else r

/-- Pending result of a group after folding its entries. -/
def foldRepl (till : String) (r : ReturnValue) (es : List (String × Track)) :
    ReturnValue :=
  es.foldl (replStep till) r

/-- Result a group contributes before the final cutoff check: the head
entry, replaced by every later entry that satisfies the cutoff. -/
def chunkRes (till : String) : List (String × Track) → Option ReturnValue
  | [] => none
  | e :: es => some (foldRepl till ⟨keyToDatum e.1, e.2⟩ es)

/-- Entry a group contributes to the `getMany` output, if any. -/
def chunkEmit (till : String) (ch : List (String × Track)) :
    Option ReturnValue :=
  match chunkRes till ch with
  | none => none
  | some r => if jsLeOS r.id.blockNumber till then some r else none

/-- Output of the `getMany` loop described group by group. -/
def chunkSpec (till : String) (chs : List (List (String × Track))) :
    List ReturnValue :=
  chs.filterMap (chunkEmit till)

/-- Flush of the pending group result performed by the `getMany` loop
when a group ends: the result is emitted only when its block number
passes the cutoff comparison. -/
def flushIf (till : String) (r : ReturnValue) : List ReturnValue :=
  if jsLeOS r.id.blockNumber till then [r] else []

/-- Match of a stored key against a `getMany` query prefix: the chain
must agree and, when an address is given, so must the address. -/
def matchB (cq : String) (addr : Option String) (k : String) : Bool :=
  match jsSplit k with
  | [c, a, _, _] =>
    c = cq && (match addr with | some aq => a = aq | none => true)
  | _ => false

/-- Declarative description of `getMany`: the distinct identity groups
among the matching keys, in first-occurrence (hence ascending) order,
each contributing its last stored entry whose block-number string is at
most the cutoff string. -/
def getManySpec (s : Store Track) (cq : String) (addr : Option String)
    (till : String) : List ReturnValue :=
  (dedupFirstAux [] ((s.filter (fun p => matchB cq addr p.1)).map
      (fun p => pfxK p.1))).filterMap
    (fun g =>
      (((s.filter (fun p => pfxK p.1 = g)).filter
          (fun p => strLe (bnK p.1) till)).getLast?).map
        (fun p => (⟨keyToDatum p.1, p.2⟩ : ReturnValue)))

/-- Declarative description of `getOne`: the last stored entry of the
exact identity whose block-number string is at most the bound. -/
def getOneSpec (s : Store Track) (c a t ub : String) :
    Except String ReturnValue :=
  match (((s.filter (fun p => pfxK p.1 = c ++ "/" ++ a ++ "/" ++ t)).filter
      (fun p => strLe (bnK p.1) ub)).getLast?) with
  | some p => .ok ⟨keyToDatum p.1, p.2⟩
  | none => .error "LEVEL_NOT_FOUND"

/-! ### Order lemmas for the byte-wise key comparison -/

/-- Characters with equal code points are equal. -/
theorem charToNat_inj {a b : Char} (h : a.toNat = b.toNat) : a = b :=
  Char.eq_of_val_eq (UInt32.ext h)

/-- Irreflexivity of the strict key order. -/
theorem strLtL_irrefl (l : List Char) : strLtL l l = false := by
  induction l with
  | nil => rfl
  | cons c cs ih => simp [strLtL, ih]

/-- No key is below the empty key. -/
theorem strLtL_nil_right (l : List Char) : strLtL l [] = false := by
  cases l <;> rfl

/-- Transitivity of the strict key order. -/
theorem strLtL_trans : ∀ {a b c : List Char},
    strLtL a b = true → strLtL b c = true → strLtL a c = true
  | [], b, c, h1, h2 => by
    cases b with
    | nil => simp [strLtL] at h1
    | cons b0 bs =>
      cases c with
      | nil => simp [strLtL_nil_right] at h2
      | cons c0 cs => rfl
  | a0 :: as, b, c, h1, h2 => by
    cases b with
    | nil => simp [strLtL] at h1
    | cons b0 bs =>
      cases c with
      | nil => simp [strLtL_nil_right] at h2
      | cons c0 cs =>
        simp only [strLtL] at h1 h2 ⊢
        by_cases hab : a0.toNat < b0.toNat
        · by_cases hbc : b0.toNat < c0.toNat
          · simp [show a0.toNat < c0.toNat by omega]
          · by_cases hcb : c0.toNat < b0.toNat
            · simp [hbc, hcb] at h2
            · simp [show a0.toNat < c0.toNat by omega]
        · by_cases hba : b0.toNat < a0.toNat
          · simp [hab, hba] at h1
          · by_cases hbc : b0.toNat < c0.toNat
            · simp [show a0.toNat < c0.toNat by omega]
            · by_cases hcb : c0.toNat < b0.toNat
              · simp [hbc, hcb] at h2
              · simp [hab, hba] at h1
                simp [hbc, hcb] at h2
                simp [show ¬ a0.toNat < c0.toNat by omega,
                  show ¬ c0.toNat < a0.toNat by omega]
                exact strLtL_trans h1 h2

/-- Totality: two keys neither of which is below the other are equal. -/
theorem strLtL_eq_of_not : ∀ {a b : List Char},
    strLtL a b = false → strLtL b a = false → a = b
  | [], [], _, _ => rfl
  | [], _ :: _, h1, _ => by simp [strLtL] at h1
  | _ :: _, [], _, h2 => by simp [strLtL] at h2
  | a0 :: as, b0 :: bs, h1, h2 => by
    simp only [strLtL] at h1 h2
    by_cases hab : a0.toNat < b0.toNat
    · simp [hab] at h1
    · by_cases hba : b0.toNat < a0.toNat
      · simp [hab, hba] at h1
        simp [hba] at h2
      · simp [hab, hba] at h1
        simp [hab, hba] at h2
        have h0 : a0 = b0 := charToNat_inj (by omega)
        rw [h0, strLtL_eq_of_not h1 h2]

/-- Asymmetry of the strict key order. -/
theorem strLtL_asymm {a b : List Char} (h : strLtL a b = true) :
    strLtL b a = false := by
  cases hba : strLtL b a with
  | false => rfl
  | true =>
    have h2 := strLtL_trans h hba
    rw [strLtL_irrefl] at h2
    simp at h2

/-- Mixed transitivity: strictly below and at most. -/
theorem strLtL_lt_of_lt_of_not_lt {a b c : List Char}
    (h1 : strLtL a b = true) (h2 : strLtL c b = false) : strLtL a c = true := by
  cases hbc : strLtL b c with
  | true => exact strLtL_trans h1 hbc
  | false =>
    rw [strLtL_eq_of_not h2 hbc]
    exact h1

/-- A shared prefix cancels in the key comparison. -/
theorem strLtL_append (p : List Char) (a b : List Char) :
    strLtL (p ++ a) (p ++ b) = strLtL a b := by
  induction p with
  | nil => rfl
  | cons c cs ih => simp [strLtL, ih]

/-- A key lying between two keys that share a prefix also carries that
prefix, with its remainder between the bound remainders. -/
theorem between_shared : ∀ (p : List Char) {u v y : List Char},
    strLtL y (p ++ u) = false → strLtL (p ++ v) y = false →
    ∃ r, y = p ++ r ∧ strLtL r u = false ∧ strLtL v r = false
  | [], u, v, y, h1, h2 => ⟨y, rfl, h1, h2⟩
  | c :: cs, u, v, y, h1, h2 => by
    cases y with
    | nil => simp [strLtL] at h1
    | cons d ys =>
      simp only [List.cons_append, strLtL] at h1 h2
      by_cases hdc : d.toNat < c.toNat
      · simp [hdc] at h1
      · by_cases hcd : c.toNat < d.toNat
        · simp [hcd] at h2
        · have h0 : c = d := charToNat_inj (by omega)
          simp [hdc, hcd] at h1 h2
          obtain ⟨r, hy, hu, hv⟩ := between_shared cs h1 h2
          exact ⟨r, by simp [hy, h0], hu, hv⟩

/-- String-level view of prefix cancellation. -/
theorem strLt_append (p a b : String) : strLt (p ++ a) (p ++ b) = strLt a b := by
  simp [strLt, String.data_append, strLtL_append]

/-- String-level view of the betweenness lemma. -/
theorem strLe_between {p u v y : String}
    (h1 : strLe (p ++ u) y = true) (h2 : strLe y (p ++ v) = true) :
    ∃ r, y = p ++ r ∧ strLe u r = true ∧ strLe r v = true := by
  simp only [strLe, strLt, Bool.not_eq_eq_eq_not, Bool.not_true,
    String.data_append] at h1 h2
  obtain ⟨r, hy, hu, hv⟩ := between_shared p.data h1 h2
  refine ⟨String.mk r, ?_, ?_, ?_⟩
  · apply String.ext
    simp [String.data_append, hy]
  · simp [strLe, strLt, hu]
  · simp [strLe, strLt, hv]


/-! ### Splitting and joining of keys -/

/-- Splitting a separator-free character list yields one segment. -/
theorem splitL_slashFree {l : List Char} (h : ∀ c ∈ l, c ≠ '/') :
    splitL l = [String.mk l] := by
  induction l with
  | nil => rfl
  | cons c cs ih =>
    have hc : c ≠ '/' := h c (by simp)
    have ih' := ih (fun x hx => h x (by simp [hx]))
    simp [splitL, hc, ih']

/-- Splitting distributes over the first separator. -/
theorem splitL_append {a : List Char} (h : ∀ c ∈ a, c ≠ '/') (r : List Char) :
    splitL (a ++ '/' :: r) = String.mk a :: splitL r := by
  induction a with
  | nil => simp [splitL]
  | cons c cs ih =>
    have hc : c ≠ '/' := h c (by simp)
    have ih' := ih (fun x hx => h x (by simp [hx]))
    simp [splitL, hc, ih']

/-- Splitting never produces an empty segment list. -/
theorem splitL_ne_nil (l : List Char) : splitL l ≠ [] := by
  induction l with
  | nil => simp [splitL]
  | cons c cs ih =>
    by_cases hc : c = '/'
    · simp [splitL, hc]
    · cases hs : splitL cs with
      | nil => exact absurd hs ih
      | cons s rest => simp [splitL, hc, hs]

/-- Every segment produced by splitting is separator-free. -/
theorem splitL_parts_slashFree :
    ∀ {l : List Char}, ∀ p ∈ splitL l, ∀ c ∈ p.data, c ≠ '/'
  | [], p, hp, c, hc => by
    simp [splitL] at hp
    subst hp
    simp at hc
  | x :: xs, p, hp, c, hc => by
    by_cases hx : x = '/'
    · simp [splitL, hx] at hp
      rcases hp with hp | hp
      · subst hp; simp at hc
      · exact splitL_parts_slashFree p hp c hc
    · cases hs : splitL xs with
      | nil => exact absurd hs (splitL_ne_nil xs)
      | cons s rest =>
        simp [splitL, hx, hs] at hp
        rcases hp with hp | hp
        · subst hp
          simp at hc
          rcases hc with hc | hc
          · subst hc; exact hx
          · exact splitL_parts_slashFree (l := xs) s (by simp [hs]) c hc
        · exact splitL_parts_slashFree (l := xs) p (by simp [hs, hp]) c hc

/-- Joining undoes splitting. -/
theorem joinParts_splitL : ∀ l : List Char, joinParts (splitL l) = String.mk l
  | [] => rfl
  | x :: xs => by
    have ih := joinParts_splitL xs
    by_cases hx : x = '/'
    · cases hs : splitL xs with
      | nil => exact absurd hs (splitL_ne_nil xs)
      | cons s rest =>
        rw [hs] at ih
        subst hx
        have hdata := congrArg String.data ih
        apply String.ext
        simp only [splitL, if_pos rfl, hs]
        simp [joinParts, String.data_append, hdata]
    · cases hs : splitL xs with
      | nil => exact absurd hs (splitL_ne_nil xs)
      | cons s rest =>
        rw [hs] at ih
        cases rest with
        | nil =>
          apply String.ext
          simp [splitL, hx, hs, joinParts]
          have := congrArg String.data ih
          simp [joinParts] at this
          simpa using this
        | cons r2 rest2 =>
          apply String.ext
          simp [splitL, hx, hs, joinParts, String.data_append]
          have := congrArg String.data ih
          simp [joinParts, String.data_append] at this
          simpa using this


/-! ### Structure of well-formed keys -/

/-- Boolean slash-freeness, unfolded. -/
theorem slashFreeB_iff {f : String} :
    slashFreeB f = true ↔ ∀ c ∈ f.data, c ≠ '/' := by
  simp [slashFreeB]

/-- Character data of a fully-qualified primary key. -/
theorem data_mkKey (c a t bn : String) :
    (mkKey c a t bn).data =
      c.data ++ '/' :: (a.data ++ '/' :: (t.data ++ '/' :: bn.data)) := by
  have hsep : ("/" : String).data = ['/'] := rfl
  simp [mkKey, String.data_append, hsep]

/-- Splitting a key built over slash-free identity fields exposes the
three identity segments. -/
theorem jsSplit_mkKey_parts {c a t : String} (hc : slashFreeB c = true)
    (ha : slashFreeB a = true) (ht : slashFreeB t = true) (r : String) :
    jsSplit (mkKey c a t r) = c :: a :: t :: splitL r.data := by
  unfold jsSplit
  rw [data_mkKey, splitL_append (slashFreeB_iff.mp hc),
    splitL_append (slashFreeB_iff.mp ha), splitL_append (slashFreeB_iff.mp ht)]

/-- Splitting a fully-qualified key over slash-free segments recovers
all four segments. -/
theorem jsSplit_mkKey {c a t bn : String} (hc : slashFreeB c = true)
    (ha : slashFreeB a = true) (ht : slashFreeB t = true)
    (hbn : slashFreeB bn = true) :
    jsSplit (mkKey c a t bn) = [c, a, t, bn] := by
  rw [jsSplit_mkKey_parts hc ha ht, splitL_slashFree (slashFreeB_iff.mp hbn)]

/-- Parsed form of a fully-qualified key. -/
theorem keyToDatum_mkKey {c a t bn : String} (hc : slashFreeB c = true)
    (ha : slashFreeB a = true) (ht : slashFreeB t = true)
    (hbn : slashFreeB bn = true) :
    keyToDatum (mkKey c a t bn) = ⟨some c, some a, some t, some bn⟩ := by
  simp [keyToDatum, jsSplit_mkKey hc ha ht hbn]

/-- Identity prefix of a key built over slash-free identity fields. -/
theorem pfxK_mkKey {c a t : String} (hc : slashFreeB c = true)
    (ha : slashFreeB a = true) (ht : slashFreeB t = true) (r : String) :
    pfxK (mkKey c a t r) = c ++ "/" ++ a ++ "/" ++ t := by
  simp [pfxK, keyToDatum, jsSplit_mkKey_parts hc ha ht, pfxD, jsStr]

/-- Block-number segment of a fully-qualified key. -/
theorem bnK_mkKey {c a t bn : String} (hc : slashFreeB c = true)
    (ha : slashFreeB a = true) (ht : slashFreeB t = true)
    (hbn : slashFreeB bn = true) :
    bnK (mkKey c a t bn) = bn := by
  simp [bnK, keyToDatum, jsSplit_mkKey hc ha ht hbn, jsStr]

/-- Joining exactly four segments yields the fully-qualified key. -/
theorem joinParts_four (c a t bn : String) :
    joinParts [c, a, t, bn] = mkKey c a t bn := by
  apply String.ext
  have hsep : ("/" : String).data = ['/'] := rfl
  simp [joinParts, mkKey, String.data_append, hsep]

/-- Structure extracted from a well-formed key. -/
theorem wfKey_elim {k : String} (h : WFKeyB k = true) :
    ∃ c a t bn, k = mkKey c a t bn ∧ slashFreeB c = true ∧
      slashFreeB a = true ∧ slashFreeB t = true ∧ slashFreeB bn = true ∧
      fieldOK c = true ∧ fieldOK a = true ∧ fieldOK t = true ∧
      bn ≠ "" ∧ bn.data.all (fun ch => ch.isDigit) = true := by
  unfold WFKeyB at h
  split at h
  case h_1 c a t bn hjs =>
    have hjoin := joinParts_splitL k.data
    rw [show splitL k.data = jsSplit k from rfl, hjs, joinParts_four] at hjoin
    have hk : k = mkKey c a t bn := hjoin.symm
    have hfree : ∀ p ∈ jsSplit k, slashFreeB p = true := by
      intro p hp
      exact slashFreeB_iff.mpr (splitL_parts_slashFree p hp)
    simp only [Bool.and_eq_true, decide_eq_true_eq] at h
    refine ⟨c, a, t, bn, hk, ?_, ?_, ?_, ?_, h.1.1.1.1, h.1.1.1.2, h.1.1.2,
      h.1.2, h.2⟩
    · exact hfree c (by rw [hjs]; simp)
    · exact hfree a (by rw [hjs]; simp)
    · exact hfree t (by rw [hjs]; simp)
    · exact hfree bn (by rw [hjs]; simp)
  case h_2 => simp at h

/-- Digit characters sit between code points 48 and 57. -/
theorem isDigit_bounds {c : Char} (h : c.isDigit = true) :
    48 ≤ c.toNat ∧ c.toNat ≤ 57 := by
  simp [Char.isDigit] at h
  exact h

/-- A non-empty all-digit string is a usable field. -/
theorem fieldOK_of_digits {bn : String} (h0 : bn ≠ "")
    (hd : bn.data.all (fun c => c.isDigit) = true) : fieldOK bn = true := by
  cases hb : bn.data with
  | nil =>
    exact absurd (String.ext (by rw [hb])) h0
  | cons c rest =>
    have hc : c.isDigit = true := by
      simp [List.all_eq_true, hb] at hd
      exact hd.1
    have := (isDigit_bounds hc).2
    simp [fieldOK, hb]
    omega

/-- A usable field stays usable under appending. -/
theorem fieldOK_append {f : String} (hf : fieldOK f = true) (g : String) :
    fieldOK (f ++ g) = true := by
  unfold fieldOK at hf
  cases hd : f.data with
  | nil => rw [hd] at hf; simp at hf
  | cons c rest =>
    rw [hd] at hf
    simp [fieldOK, String.data_append, hd]
    simpa using hf

/-- A usable field compares at most the tilde sentinel. -/
theorem strLe_tilde {r : String} (hr : fieldOK r = true) :
    strLe r "~" = true := by
  unfold fieldOK at hr
  cases hd : r.data with
  | nil => rw [hd] at hr; simp at hr
  | cons c rest =>
    rw [hd] at hr
    simp only [decide_eq_true_eq] at hr
    have htilde : ("~" : String).data = ['~'] := rfl
    have ht : ('~' : Char).toNat = 126 := rfl
    simp [strLe, strLt, htilde, hd, strLtL, ht, show ¬ (126 < c.toNat) by omega,
      hr]


/-! ### Range characterisation of the scans -/

/-- Reflexivity of the key order. -/
theorem strLe_refl (a : String) : strLe a a = true := by
  simp [strLe, strLt, strLtL_irrefl]

/-- Strict order implies the order. -/
theorem strLe_of_strLt {a b : String} (h : strLt a b = true) :
    strLe a b = true := by
  simp only [strLe, strLt, Bool.not_eq_eq_eq_not, Bool.not_true]
  exact strLtL_asymm h

/-- Transitivity of the key order. -/
theorem strLe_trans {a b c : String} (h1 : strLe a b = true)
    (h2 : strLe b c = true) : strLe a c = true := by
  simp only [strLe, strLt, Bool.not_eq_eq_eq_not, Bool.not_true] at h1 h2 ⊢
  cases hca : strLtL c.data a.data with
  | false => rfl
  | true => rw [strLtL_lt_of_lt_of_not_lt hca h1] at h2; exact h2

/-- Appending on the right of both strings of a bound keeps the bound
direction decided by the shared part. -/
theorem strLe_append_cancel (p a b : String) :
    strLe (p ++ a) (p ++ b) = strLe a b := by
  simp [strLe, strLt_append]

/-- A key between a bound and an extension of that bound carries the
bound as a prefix. -/
theorem range_prefix {B v k : String}
    (h1 : strLe B k = true) (h2 : strLe k (B ++ v) = true) :
    ∃ r, k = B ++ r ∧ strLe r v = true := by
  have hB : B ++ "" = B := by
    apply String.ext
    simp [String.data_append]
  have h1' : strLe (B ++ "") k = true := by rwa [hB]
  obtain ⟨r, hk, _, hv⟩ := strLe_between h1' h2
  exact ⟨r, hk, hv⟩

/-- Conversely, every extension below the bound extension lies in the
range. -/
theorem range_mem {r v : String} (B : String) (hrv : strLe r v = true) :
    strLe B (B ++ r) = true ∧ strLe (B ++ r) (B ++ v) = true := by
  constructor
  · have h1 : strLtL (B.data ++ r.data) (B.data ++ []) = strLtL r.data [] :=
      strLtL_append _ _ _
    rw [List.append_nil] at h1
    simp [strLe, strLt, String.data_append, h1, strLtL_nil_right]
  · rw [strLe_append_cancel]
    exact hrv

/-- A fully-qualified key is its identity scan prefix plus the block
segment. -/
theorem mkKey_eq_append (c a t r : String) :
    mkKey c a t r = (c ++ "/" ++ a ++ "/" ++ t ++ "/") ++ r := by
  apply String.ext
  simp [mkKey, String.data_append]

/-- Splitting a slash-free identity triple. -/
theorem splitL_triple {c a t : String} (hc : slashFreeB c = true)
    (ha : slashFreeB a = true) (ht : slashFreeB t = true) :
    splitL ((c ++ "/" ++ a ++ "/" ++ t).data) = [c, a, t] := by
  have hsep : ("/" : String).data = ['/'] := rfl
  have hd : (c ++ "/" ++ a ++ "/" ++ t).data =
      c.data ++ '/' :: (a.data ++ '/' :: t.data) := by
    simp [String.data_append, hsep]
  rw [hd, splitL_append (slashFreeB_iff.mp hc),
    splitL_append (slashFreeB_iff.mp ha),
    splitL_slashFree (slashFreeB_iff.mp ht)]

/-- Equal slash-free identity triples have equal components. -/
theorem triple_eq {c a t c2 a2 t2 : String} (hc : slashFreeB c = true)
    (ha : slashFreeB a = true) (ht : slashFreeB t = true)
    (hc2 : slashFreeB c2 = true) (ha2 : slashFreeB a2 = true)
    (ht2 : slashFreeB t2 = true)
    (h : c2 ++ "/" ++ a2 ++ "/" ++ t2 = c ++ "/" ++ a ++ "/" ++ t) :
    c2 = c ∧ a2 = a ∧ t2 = t := by
  have h2 := congrArg (fun s : String => splitL s.data) h
  simp only [splitL_triple hc2 ha2 ht2, splitL_triple hc ha ht] at h2
  simp at h2
  exact h2

/-- Membership of a well-formed key in the `getOne` scan range is
exactly: the identity matches and the block-number string is at most the
bound string. -/
theorem getOne_range_iff {k c a t ub : String} (hwf : WFKeyB k = true)
    (hc : slashFreeB c = true) (ha : slashFreeB a = true)
    (ht : slashFreeB t = true) :
    (strLe (c ++ "/" ++ a ++ "/" ++ t ++ "/") k &&
      strLe k (c ++ "/" ++ a ++ "/" ++ t ++ "/" ++ ub)) = true ↔
    (pfxK k = c ++ "/" ++ a ++ "/" ++ t ∧ strLe (bnK k) ub = true) := by
  obtain ⟨c2, a2, t2, bn2, hk, hc2, ha2, ht2, hbn2, hf1, hf2, hf3, hbne, hdig⟩ :=
    wfKey_elim hwf
  have hlte : c ++ "/" ++ a ++ "/" ++ t ++ "/" ++ ub =
      (c ++ "/" ++ a ++ "/" ++ t ++ "/") ++ ub := by
    apply String.ext
    simp [String.data_append]
  constructor
  · intro h
    rw [Bool.and_eq_true] at h
    obtain ⟨h1, h2⟩ := h
    rw [hlte] at h2
    obtain ⟨r, hkr, hrv⟩ := range_prefix h1 h2
    have hkr' : k = mkKey c a t r := by rw [hkr, mkKey_eq_append]
    have hs1 : jsSplit k = c :: a :: t :: splitL r.data := by
      rw [hkr']
      exact jsSplit_mkKey_parts hc ha ht r
    have hs2 : jsSplit k = [c2, a2, t2, bn2] := by
      rw [hk]
      exact jsSplit_mkKey hc2 ha2 ht2 hbn2
    rw [hs2] at hs1
    have hceq : c2 = c ∧ a2 = a ∧ t2 = t ∧ [bn2] = splitL r.data := by
      simpa using hs1
    have hrbn : r = bn2 := by
      have hj := joinParts_splitL r.data
      rw [← hceq.2.2.2] at hj
      simp [joinParts] at hj
      exact hj.symm
    constructor
    · rw [hk, pfxK_mkKey hc2 ha2 ht2, hceq.1, hceq.2.1, hceq.2.2.1]
    · rw [hk, bnK_mkKey hc2 ha2 ht2 hbn2, ← hrbn]
      exact hrv
  · intro h
    obtain ⟨h1, h2⟩ := h
    rw [hk, pfxK_mkKey hc2 ha2 ht2] at h1
    obtain ⟨hec, hea, het⟩ := triple_eq hc ha ht hc2 ha2 ht2 h1
    rw [hk, bnK_mkKey hc2 ha2 ht2 hbn2] at h2
    have hkB : k = (c ++ "/" ++ a ++ "/" ++ t ++ "/") ++ bn2 := by
      rw [hk, ← mkKey_eq_append, hec, hea, het]
    rw [Bool.and_eq_true, hkB, hlte]
    exact range_mem _ h2


/-- In a pairwise-related list the last element is above every other
element. -/
theorem pairwise_getLast_max {α : Type} {R : α → α → Prop} {x : α} :
    ∀ {l : List α}, List.Pairwise R l → l.getLast? = some x →
      ∀ y ∈ l, y = x ∨ R y x
  | [], _, h, y, hy => by simp at hy
  | [a], _, h, y, hy => by
    simp at h
    simp at hy
    subst hy
    exact Or.inl h
  | a :: b :: bs, hp, h, y, hy => by
    rw [List.getLast?_cons_cons] at h
    rcases List.mem_cons.mp hy with rfl | hy2
    · right
      have hx : x ∈ b :: bs := List.mem_of_mem_getLast? h
      exact (List.pairwise_cons.mp hp).1 x hx
    · exact pairwise_getLast_max (List.pairwise_cons.mp hp).2 h y hy2

/-- The entries of a well-formed store that share a given identity and
satisfy a block bound, in store order. -/
def groupQual (s : Store Track) (c a t ub : String) : Store Track :=
  (s.filter (fun p => pfxK p.1 = c ++ "/" ++ a ++ "/" ++ t)).filter
    (fun p => strLe (bnK p.1) ub)

/-- The `getOne` scan selects exactly the qualifying entries of the
requested identity. -/
theorem getOne_filter_eq {s : Store Track} {c a t ub : String}
    (hwf : ∀ p ∈ s, WFKeyB p.1 = true) (hc : slashFreeB c = true)
    (ha : slashFreeB a = true) (ht : slashFreeB t = true) :
    iterRange s (c ++ "/" ++ a ++ "/" ++ t ++ "/")
        (c ++ "/" ++ a ++ "/" ++ t ++ "/" ++ ub) = groupQual s c a t ub := by
  rw [groupQual, iterRange, List.filter_filter]
  apply List.filter_congr
  intro p hp
  have hiff := @getOne_range_iff p.1 c a t ub (hwf p hp) hc ha ht
  apply Bool.eq_iff_iff.mpr
  constructor
  · intro h
    obtain ⟨h1, h2⟩ := hiff.mp h
    simp [h1, h2]
  · intro h
    simp only [Bool.and_eq_true, decide_eq_true_eq] at h
    exact hiff.mpr ⟨h.2, h.1⟩


/-- A stored entry whose key is built over the query identity has a
well-formed block segment. -/
theorem mem_ident_elim {s : Store Track} {c a t b : String} {v : Track}
    (hwf : ∀ p ∈ s, WFKeyB p.1 = true) (hc : slashFreeB c = true)
    (ha : slashFreeB a = true) (ht : slashFreeB t = true)
    (hmem : (mkKey c a t b, v) ∈ s) :
    slashFreeB b = true ∧ b ≠ "" ∧ b.data.all (fun ch => ch.isDigit) = true := by
  have hwfk := hwf _ hmem
  obtain ⟨c2, a2, t2, bn2, hk, hc2, ha2, ht2, hbn2, _, _, _, hbne, hdig⟩ :=
    wfKey_elim hwfk
  have hs1 : jsSplit (mkKey c a t b) = c :: a :: t :: splitL b.data :=
    jsSplit_mkKey_parts hc ha ht b
  have hs2 : jsSplit (mkKey c a t b) = [c2, a2, t2, bn2] := by
    have hk' : mkKey c a t b = mkKey c2 a2 t2 bn2 := hk
    rw [hk']
    exact jsSplit_mkKey hc2 ha2 ht2 hbn2
  rw [hs2] at hs1
  have hlist : c2 = c ∧ a2 = a ∧ t2 = t ∧ [bn2] = splitL b.data := by
    simpa using hs1
  have hb : b = bn2 := by
    have hj := joinParts_splitL b.data
    rw [← hlist.2.2.2] at hj
    simp [joinParts] at hj
    exact hj.symm
  rw [hb]
  exact ⟨hbn2, hbne, hdig⟩

/-- Amended contract of `DB.getOne`: over a well-formed sorted store the
reverse limit-1 scan returns exactly the qualifying entry of the
requested identity whose primary key is greatest in byte order, where
"qualifying" compares the raw block-number strings lexicographically
(the cutoff bound is the raw cutoff string, or the tilde sentinel when
the cutoff is omitted); it fails with the not-found code exactly when no
entry of the identity qualifies under that string bound. -/
theorem getOne_string_cutoff (s : Store Track) (c a t : String)
    (cutoff : Option String) (hs : sortedStore s)
    (hwf : ∀ p ∈ s, WFKeyB p.1 = true)
    (hc : slashFreeB c = true) (ha : slashFreeB a = true)
    (ht : slashFreeB t = true)
    (hc0 : c ≠ "") (ha0 : a ≠ "") (ht0 : t ≠ "") (hcut : cutoff ≠ some "") :
    getOne s ⟨some c, some a, some t, cutoff⟩ =
      getOneSpec s c a t (cutoff.getD "~") ∧
    ∀ r b v, getOne s ⟨some c, some a, some t, cutoff⟩ = .ok r →
      (mkKey c a t b, v) ∈ s → strLe b (cutoff.getD "~") = true →
      strLe b (jsStr r.id.blockNumber) = true := by
  have hbranch : getOne s ⟨some c, some a, some t, cutoff⟩ =
      (match (iterRange s (c ++ "/" ++ a ++ "/" ++ t ++ "/")
          (c ++ "/" ++ a ++ "/" ++ t ++ "/" ++ (cutoff.getD "~"))).reverse with
      | (k, v) :: _ => Except.ok ⟨keyToDatum k, v⟩
      | [] => Except.error "LEVEL_NOT_FOUND") := by
    cases cutoff with
    | none =>
      have htl : c ++ "/" ++ a ++ "/" ++ t ++ "/~" =
          c ++ "/" ++ a ++ "/" ++ t ++ "/" ++ "~" := by
        apply String.ext
        simp [String.data_append]
      simp only [getOne, truthy, jsStr, Option.getD, ← htl]
      simp [hc0, ha0, ht0]
    | some bc =>
      have hbc : bc ≠ "" := fun h => hcut (by rw [h])
      simp only [getOne, truthy, jsStr, Option.getD]
      simp [hc0, ha0, ht0, hbc]
  rw [getOne_filter_eq hwf hc ha ht] at hbranch
  have hpair : List.Pairwise
      (fun p q : String × Track => strLt p.1 q.1 = true)
      (groupQual s c a t (cutoff.getD "~")) :=
    List.Pairwise.filter _ (List.Pairwise.filter _ hs)
  constructor
  · rw [hbranch]
    cases hrev : (groupQual s c a t (cutoff.getD "~")).reverse with
    | nil =>
      have hlast : (groupQual s c a t (cutoff.getD "~")).getLast? = none := by
        rw [← List.head?_reverse, hrev]
        rfl
      rw [getOneSpec, ← groupQual, hlast]
    | cons p rest =>
      obtain ⟨k2, v2⟩ := p
      have hlast : (groupQual s c a t (cutoff.getD "~")).getLast? =
          some (k2, v2) := by
        rw [← List.head?_reverse, hrev]
        rfl
      rw [getOneSpec, ← groupQual, hlast]
  · intro r b v hok hmem hble
    obtain ⟨hbfree, hbne, hdig⟩ := mem_ident_elim hwf hc ha ht hmem
    have hmemG : (mkKey c a t b, v) ∈ groupQual s c a t (cutoff.getD "~") := by
      apply List.mem_filter.mpr
      refine ⟨List.mem_filter.mpr ⟨hmem, ?_⟩, ?_⟩
      · simp [pfxK_mkKey hc ha ht]
      · simp [bnK_mkKey hc ha ht hbfree, hble]
    rw [hbranch] at hok
    cases hrev : (groupQual s c a t (cutoff.getD "~")).reverse with
    | nil =>
      rw [hrev] at hok
      exact absurd hok (by simp)
    | cons p rest =>
      rw [hrev] at hok
      obtain ⟨k2, v2⟩ := p
      have hr : r = ⟨keyToDatum k2, v2⟩ := by
        injection hok with hinj
        exact hinj.symm
      have hlast : (groupQual s c a t (cutoff.getD "~")).getLast? =
          some (k2, v2) := by
        rw [← List.head?_reverse, hrev]
        rfl
      have hmax := pairwise_getLast_max hpair hlast _ hmemG
      have hk2mem : (k2, v2) ∈ groupQual s c a t (cutoff.getD "~") :=
        List.mem_of_mem_getLast? hlast
      have hk2s : (k2, v2) ∈ s :=
        (List.mem_filter.mp (List.mem_filter.mp hk2mem).1).1
      have hk2pfx : pfxK k2 = c ++ "/" ++ a ++ "/" ++ t := by
        have h2 := (List.mem_filter.mp (List.mem_filter.mp hk2mem).1).2
        simpa using h2
      obtain ⟨c2, a2, t2, bn2, hk, hc2, ha2, ht2, hbn2, _, _, _, _, _⟩ :=
        wfKey_elim (hwf _ hk2s)
      have hk' : k2 = mkKey c2 a2 t2 bn2 := hk
      rw [hk', pfxK_mkKey hc2 ha2 ht2] at hk2pfx
      obtain ⟨hec, hea, het⟩ := triple_eq hc ha ht hc2 ha2 ht2 hk2pfx
      have hrid : jsStr r.id.blockNumber = bn2 := by
        rw [hr]
        simp [hk', keyToDatum_mkKey hc2 ha2 ht2 hbn2, jsStr]
      rw [hrid]
      rcases hmax with heq | hlt
      · have hkeq : mkKey c a t b = k2 := congrArg Prod.fst heq
        rw [hk', hec, hea, het] at hkeq
        have hbd : b = bn2 := by
          have hdd := congrArg String.data hkeq
          rw [data_mkKey, data_mkKey] at hdd
          simp at hdd
          exact String.ext hdd
        rw [hbd]
        exact strLe_refl bn2
      · rw [hk', hec, hea, het] at hlt
        rw [mkKey_eq_append c a t b, mkKey_eq_append c a t bn2] at hlt
        rw [strLt_append] at hlt
        exact strLe_of_strLt hlt


/-- String-level transitivity of the strict order. -/
theorem strLt_trans {a b c : String} (h1 : strLt a b = true)
    (h2 : strLt b c = true) : strLt a c = true :=
  strLtL_trans h1 h2

/-- Keys are totally ordered: incomparable keys are equal. -/
theorem strLt_total {a b : String} (h1 : strLt a b = false)
    (h2 : strLt b a = false) : a = b :=
  String.ext (strLtL_eq_of_not h1 h2)

/-- The strict order on a key and itself is false. -/
theorem strLt_irrefl (a : String) : strLt a a = false :=
  strLtL_irrefl a.data

/-! ### Point operations on stores -/

/-- Writing a key makes it readable. -/
theorem lookupE_putE_self {V : Type} (s : Store V) (k : String) (v : V) :
    lookupE (putE s k v) k = some v := by
  induction s with
  | nil => simp [putE, lookupE, List.find?]
  | cons p rest ih =>
    obtain ⟨k2, v2⟩ := p
    cases h1 : strLt k k2 with
    | true => simp [putE, h1, lookupE, List.find?]
    | false =>
      by_cases h2 : k = k2
      · subst h2
        simp [putE, strLt_irrefl, lookupE, List.find?]
      · have h2' : ¬ (k2 = k) := fun h => h2 h.symm
        simp only [putE, h1, Bool.false_eq_true, if_false, h2]
        simp [lookupE, List.find?, h2'] at ih ⊢
        exact ih

/-- Writing a key leaves other keys unchanged. -/
theorem lookupE_putE_ne {V : Type} (s : Store V) {k k2 : String} (v : V)
    (h : k2 ≠ k) : lookupE (putE s k v) k2 = lookupE s k2 := by
  have h' : ¬ (k = k2) := fun hh => h hh.symm
  induction s with
  | nil => simp [putE, lookupE, List.find?, h']
  | cons p rest ih =>
    obtain ⟨k3, v3⟩ := p
    cases h1 : strLt k k3 with
    | true => simp [putE, h1, lookupE, List.find?, h']
    | false =>
      by_cases h2 : k = k3
      · subst h2
        simp [putE, strLt_irrefl, lookupE, List.find?, h']
      · simp only [putE, h1, Bool.false_eq_true, if_false, h2]
        by_cases h3 : k3 = k2
        · simp [lookupE, List.find?, h3]
        · simp [lookupE, List.find?, h3] at ih ⊢
          exact ih

/-- Deleting a key removes it. -/
theorem lookupE_delE_self {V : Type} (s : Store V) (k : String) :
    lookupE (delE s k) k = none := by
  induction s with
  | nil => simp [delE, lookupE, List.find?]
  | cons p rest ih =>
    obtain ⟨k2, v2⟩ := p
    by_cases h : k2 = k
    · simpa [delE, lookupE, h] using ih
    · simpa [delE, lookupE, List.find?, h] using ih

/-- Deleting a key leaves other keys unchanged. -/
theorem lookupE_delE_ne {V : Type} (s : Store V) {k k2 : String}
    (h : k2 ≠ k) : lookupE (delE s k) k2 = lookupE s k2 := by
  induction s with
  | nil => simp [delE, lookupE]
  | cons p rest ih =>
    obtain ⟨k3, v3⟩ := p
    by_cases h3 : k3 = k
    · subst h3
      have h5 : ¬ (k3 = k2) := fun hh => h hh.symm
      simpa [delE, lookupE, List.find?, h5] using ih
    · by_cases h4 : k3 = k2
      · simp [delE, lookupE, List.find?, h3, h4, h]
      · simpa [delE, lookupE, List.find?, h3, h4] using ih

/-- Keys absent everywhere are counted zero times. -/
theorem countKey_eq_zero {V : Type} {s : Store V} {k : String}
    (h : ∀ p ∈ s, p.1 ≠ k) : countKey s k = 0 := by
  simp only [countKey, List.length_eq_zero]
  rw [List.filter_eq_nil_iff]
  intro p hp
  simp [h p hp]

/-- Every element of a written store is an old element or the new
entry. -/
theorem mem_putE {V : Type} {s : Store V} {k : String} {v : V} :
    ∀ x ∈ putE s k v, x ∈ s ∨ x = (k, v) := by
  induction s with
  | nil =>
    intro x hx
    simp [putE] at hx
    exact Or.inr hx
  | cons p rest ih =>
    obtain ⟨k2, v2⟩ := p
    intro x hx
    cases h1 : strLt k k2 with
    | true =>
      rw [putE] at hx
      rw [h1] at hx
      simp only [if_true] at hx
      rcases List.mem_cons.mp hx with rfl | hx2
      · exact Or.inr rfl
      · exact Or.inl hx2
    | false =>
      by_cases h2 : k = k2
      · subst h2
        simp only [putE, strLt_irrefl, Bool.false_eq_true, if_false,
          eq_self_iff_true, if_true] at hx
        rcases List.mem_cons.mp hx with rfl | hx2
        · exact Or.inr rfl
        · exact Or.inl (List.mem_cons_of_mem _ hx2)
      · rw [putE] at hx
        rw [h1] at hx
        simp only [Bool.false_eq_true, if_false, h2] at hx
        rcases List.mem_cons.mp hx with rfl | hx2
        · exact Or.inl (List.mem_cons_self _ _)
        · rcases ih x hx2 with hh | hh
          · exact Or.inl (List.mem_cons_of_mem _ hh)
          · exact Or.inr hh

/-- Writing preserves the sortedness invariant. -/
theorem putE_sorted {V : Type} {s : Store V} (k : String) (v : V)
    (hs : sortedStore s) : sortedStore (putE s k v) := by
  induction s with
  | nil => simp [putE, sortedStore]
  | cons p rest ih =>
    obtain ⟨k2, v2⟩ := p
    have hs2 : List.Pairwise (fun p q : String × V => strLt p.1 q.1 = true)
        ((k2, v2) :: rest) := hs
    rw [List.pairwise_cons] at hs2
    cases h1 : strLt k k2 with
    | true =>
      show List.Pairwise (fun p q : String × V => strLt p.1 q.1 = true) _
      rw [putE]
      rw [h1]
      simp only [if_true]
      rw [List.pairwise_cons]
      refine ⟨?_, List.pairwise_cons.mpr hs2⟩
      intro q hq
      rcases List.mem_cons.mp hq with rfl | hq2
      · exact h1
      · exact strLt_trans h1 (hs2.1 q hq2)
    | false =>
      by_cases h2 : k = k2
      · show List.Pairwise (fun p q : String × V => strLt p.1 q.1 = true) _
        rw [putE]
        rw [h1]
        simp only [Bool.false_eq_true, if_false, h2, if_true]
        rw [List.pairwise_cons]
        subst h2
        exact hs2
      · show List.Pairwise (fun p q : String × V => strLt p.1 q.1 = true) _
        rw [putE]
        rw [h1]
        simp only [Bool.false_eq_true, if_false, h2]
        rw [List.pairwise_cons]
        have hlt : strLt k2 k = true := by
          cases hx : strLt k2 k with
          | true => rfl
          | false => exact absurd (strLt_total hx h1) (fun hh => h2 hh.symm)
        refine ⟨?_, ih hs2.2⟩
        intro q hq
        rcases mem_putE q hq with hq2 | hq2
        · exact hs2.1 q hq2
        · rw [hq2]
          exact hlt


/-- Strictly larger keys are different. -/
theorem ne_of_strLt {a b : String} (h : strLt a b = true) : b ≠ a := by
  intro he
  rw [he] at h
  rw [strLt_irrefl] at h
  simp at h

/-- Counting after consing a matching entry. -/
theorem countKey_cons_self {V : Type} (k : String) (v : V) (l : Store V) :
    countKey ((k, v) :: l) k = countKey l k + 1 := by
  simp [countKey, List.filter]

/-- Counting after consing a non-matching entry. -/
theorem countKey_cons_ne {V : Type} {k k2 : String} (v : V) (l : Store V)
    (h : k2 ≠ k) : countKey ((k2, v) :: l) k = countKey l k := by
  simp [countKey, List.filter, h]

/-- Writing into a sorted store leaves exactly one entry under the
written key. -/
theorem countKey_putE {V : Type} {s : Store V} (k : String) (v : V)
    (hs : sortedStore s) : countKey (putE s k v) k = 1 := by
  induction s with
  | nil => simp [putE, countKey, List.filter]
  | cons p rest ih =>
    obtain ⟨k2, v2⟩ := p
    have hs2 : List.Pairwise (fun p q : String × V => strLt p.1 q.1 = true)
        ((k2, v2) :: rest) := hs
    rw [List.pairwise_cons] at hs2
    cases h1 : strLt k k2 with
    | true =>
      have hzero : countKey ((k2, v2) :: rest) k = 0 := by
        apply countKey_eq_zero
        intro p hp
        rcases List.mem_cons.mp hp with rfl | hp2
        · exact ne_of_strLt h1
        · exact ne_of_strLt (strLt_trans h1 (hs2.1 p hp2))
      rw [putE]
      rw [h1]
      simp only [if_true]
      rw [countKey_cons_self, hzero]
    | false =>
      by_cases h2 : k = k2
      · subst h2
        simp only [putE, strLt_irrefl, Bool.false_eq_true, if_false,
          eq_self_iff_true, if_true]
        rw [countKey_cons_self]
        have hzero : countKey rest k = 0 := by
          apply countKey_eq_zero
          intro p hp
          exact ne_of_strLt (hs2.1 p hp)
        rw [hzero]
      · rw [putE]
        rw [h1]
        simp only [Bool.false_eq_true, if_false, h2]
        rw [countKey_cons_ne _ _ (fun hh => h2 hh.symm)]
        exact ih hs2.2

/-! ### The mutation coordinator -/

/-- Amended contract of `DB.del`: deletion never checks for presence
and never fails with a not-found error; it removes the primary entry if
present (a silent no-op otherwise) and then removes the change marker if
present (again a no-op otherwise), touching no other key of either
store. -/
theorem del_never_not_found (st : DBState) (d : Datum)
    (hbn : d.blockNumber.length ≤ 10) :
    (del st d).2 = none ∧
    (del st d).1.level = delE st.level (datumToKey d.toQ) ∧
    lookupE (del st d).1.level (datumToKey d.toQ) = none ∧
    (∀ k2, k2 ≠ datumToKey d.toQ →
      lookupE (del st d).1.level k2 = lookupE st.level k2) ∧
    ∃ ck, datumToChangeKey d.toQ = .ok ck ∧
      delOps d = ([.delTrack (datumToKey d.toQ), .delChange ck], none) ∧
      (del st d).1.changeIndex = delE st.changeIndex ck ∧
      lookupE (del st d).1.changeIndex ck = none ∧
      (∀ k2, k2 ≠ ck →
        lookupE (del st d).1.changeIndex k2 = lookupE st.changeIndex k2) := by
  have hgt : ¬ (d.blockNumber.length > 10) := by omega
  have hck : datumToChangeKey d.toQ = .ok (padStart d.blockNumber 10 '0' ++
      "/" ++ d.chainId ++ "/" ++ d.address ++ "/" ++ d.tokenId) := by
    simp [datumToChangeKey, Datum.toQ, encodeNumber, hgt, jsStr]
  have hdel : del st d =
      (⟨delE st.level (datumToKey d.toQ),
        delE st.changeIndex (padStart d.blockNumber 10 '0' ++ "/" ++
          d.chainId ++ "/" ++ d.address ++ "/" ++ d.tokenId)⟩, none) := by
    simp [del, delOps, hck, applyEff]
  refine ⟨by rw [hdel], by rw [hdel], ?_, ?_, _, hck, by simp [delOps, hck],
    by rw [hdel], ?_, ?_⟩
  · rw [hdel]
    exact lookupE_delE_self _ _
  · intro k2 hne
    rw [hdel]
    exact lookupE_delE_ne _ hne
  · rw [hdel]
    exact lookupE_delE_self _ _
  · intro k2 hne
    rw [hdel]
    exact lookupE_delE_ne _ hne

/-- Counterexample to the stated `remove` contract: with the primary
entry absent and its change marker present, `del` succeeds (no NotFound
failure) and still removes the marker, leaving the change store
changed. -/
theorem del_counterexample :
    del ⟨[], [("0000000095/1/0x13/5", "")]⟩ ⟨"1", "0x13", "5", "95"⟩ =
      (⟨[], []⟩, none) ∧
    lookupE ([] : Store Track) "1/0x13/5/95" = none := by decide

/-- Witness instance of the amended `del` contract at a state where the
primary entry is present. -/
theorem del_never_not_found_witness :
    ("95" : String).length ≤ 10 ∧
    (del ⟨[("1/0x13/5/95", "pay")], [("0000000095/1/0x13/5", "")]⟩
      ⟨"1", "0x13", "5", "95"⟩).2 = none :=
  ⟨by decide, (del_never_not_found
    ⟨[("1/0x13/5/95", "pay")], [("0000000095/1/0x13/5", "")]⟩
    ⟨"1", "0x13", "5", "95"⟩ (by decide)).1⟩

/-- Amended contract of `decodeIdentityKey`: parsing never fails; a key
with fewer than four segments yields the present segments in order with
the remaining fields undefined, and segments beyond the fourth are
ignored. -/
theorem keyToDatum_wrong_segments (a b c d e : String)
    (ha : slashFreeB a = true) (hb : slashFreeB b = true)
    (hc : slashFreeB c = true) (hd : slashFreeB d = true)
    (he : slashFreeB e = true) :
    keyToDatum (a ++ "/" ++ b) = ⟨some a, some b, none, none⟩ ∧
    keyToDatum (a ++ "/" ++ b ++ "/" ++ c ++ "/" ++ d ++ "/" ++ e) =
      ⟨some a, some b, some c, some d⟩ := by
  have hsep : ("/" : String).data = ['/'] := rfl
  constructor
  · have hdata : (a ++ "/" ++ b).data = a.data ++ '/' :: b.data := by
      simp [String.data_append, hsep]
    unfold keyToDatum jsSplit
    rw [hdata, splitL_append (slashFreeB_iff.mp ha),
      splitL_slashFree (slashFreeB_iff.mp hb)]
    rfl
  · have hdata : (a ++ "/" ++ b ++ "/" ++ c ++ "/" ++ d ++ "/" ++ e).data =
        a.data ++ '/' :: (b.data ++ '/' :: (c.data ++ '/' ::
          (d.data ++ '/' :: e.data))) := by
      simp [String.data_append, hsep]
    unfold keyToDatum jsSplit
    rw [hdata, splitL_append (slashFreeB_iff.mp ha),
      splitL_append (slashFreeB_iff.mp hb),
      splitL_append (slashFreeB_iff.mp hc),
      splitL_append (slashFreeB_iff.mp hd),
      splitL_slashFree (slashFreeB_iff.mp he)]
    rfl

/-- Counterexample to the stated `decodeIdentityKey` contract: a
two-segment key is not rejected, it parses into a structured value with
the missing fields undefined. -/
theorem keyToDatum_counterexample :
    keyToDatum "a/b" = ⟨some "a", some "b", none, none⟩ ∧
    (jsSplit "a/b").length = 2 ∧ (2 : Nat) ≠ 4 := by decide

/-- Witness instance of the amended `decodeIdentityKey` contract. -/
theorem keyToDatum_wrong_segments_witness :
    slashFreeB "x" = true ∧
    keyToDatum ("x" ++ "/" ++ "y") = ⟨some "x", some "y", none, none⟩ :=
  ⟨by decide, (keyToDatum_wrong_segments "x" "y" "z" "w" "q" (by decide)
    (by decide) (by decide) (by decide) (by decide)).1⟩

/-- Counterexample to the stated `getOne` contract: with versions stored
at blocks 100 and 101 only, the cutoff 99 does not produce NotFound but
returns the block-101 payload, because the scan compares raw
block-number strings and both stored keys sort below the cutoff key;
likewise, with versions at blocks 9 and 10 and no cutoff, the block-9
payload is returned although block 10 is numerically greatest. -/
theorem getOne_counterexample :
    getOne [("1/0x01/1/100", "data"), ("1/0x01/1/101", "updated")]
        ⟨some "1", some "0x01", some "1", some "99"⟩ =
      .ok ⟨⟨some "1", some "0x01", some "1", some "101"⟩, "updated"⟩ ∧
    getOne [("1/a/1/10", "v10"), ("1/a/1/9", "v9")]
        ⟨some "1", some "a", some "1", none⟩ =
      .ok ⟨⟨some "1", some "a", some "1", some "9"⟩, "v9"⟩ := by decide

/-- Witness instance of the amended `getOne` contract on the two-block
scenario store, evaluating the declarative description. -/
theorem getOne_string_cutoff_witness :
    sortedStore ([("1/0x01/1/100", "data"), ("1/0x01/1/101", "updated")] :
      Store Track) ∧
    getOne [("1/0x01/1/100", "data"), ("1/0x01/1/101", "updated")]
        ⟨some "1", some "0x01", some "1", some "101"⟩ =
      getOneSpec [("1/0x01/1/100", "data"), ("1/0x01/1/101", "updated")]
        "1" "0x01" "1" "101" ∧
    getOneSpec [("1/0x01/1/100", "data"), ("1/0x01/1/101", "updated")]
        "1" "0x01" "1" "101" =
      .ok ⟨⟨some "1", some "0x01", some "1", some "101"⟩, "updated"⟩ :=
  ⟨by decide,
   (getOne_string_cutoff _ "1" "0x01" "1" (some "101") (by decide) (by decide)
     (by decide) (by decide) (by decide) (by decide) (by decide) (by decide)
     (by decide)).1,
   by decide⟩


/-! ### Decimal rendering and parsing -/

/-- Folding digits from an arbitrary accumulator. -/
theorem valD_go (l : List Char) : ∀ a : Nat,
    l.foldl (fun acc c => acc * 10 + (c.toNat - 48)) a =
      a * 10 ^ l.length + valD l := by
  induction l with
  | nil => intro a; simp [valD]
  | cons c cs ih =>
    intro a
    simp only [List.foldl_cons, List.length_cons]
    rw [ih (a * 10 + (c.toNat - 48))]
    have hv : valD (c :: cs) = (c.toNat - 48) * 10 ^ cs.length + valD cs := by
      unfold valD
      simp only [List.foldl_cons, Nat.zero_mul, Nat.zero_add]
      exact ih (c.toNat - 48)
    rw [hv, pow_succ]
    ring

/-- Value of a digit list with its head split off. -/
theorem valD_cons (c : Char) (cs : List Char) :
    valD (c :: cs) = (c.toNat - 48) * 10 ^ cs.length + valD cs := by
  unfold valD
  simp only [List.foldl_cons, Nat.zero_mul, Nat.zero_add]
  exact valD_go cs (c.toNat - 48)

/-- Value of a digit list with its last digit split off. -/
theorem valD_append_singleton (l : List Char) (c : Char) :
    valD (l ++ [c]) = valD l * 10 + (c.toNat - 48) := by
  unfold valD
  rw [List.foldl_append]
  simp

/-- Digit lists are bounded by the power of ten of their length. -/
theorem valD_lt : ∀ (l : List Char), (∀ c ∈ l, c.isDigit = true) →
    valD l < 10 ^ l.length
  | [], _ => by simp [valD]
  | c :: cs, h => by
    have hc := isDigit_bounds (h c (by simp))
    have ih := valD_lt cs (fun x hx => h x (by simp [hx]))
    rw [valD_cons, List.length_cons]
    have h1 : c.toNat - 48 ≤ 9 := by omega
    have h2 : (c.toNat - 48) * 10 ^ cs.length ≤ 9 * 10 ^ cs.length :=
      Nat.mul_le_mul_right _ h1
    calc (c.toNat - 48) * 10 ^ cs.length + valD cs
        < (c.toNat - 48) * 10 ^ cs.length + 10 ^ cs.length :=
          Nat.add_lt_add_left ih _
      _ ≤ 9 * 10 ^ cs.length + 10 ^ cs.length := Nat.add_le_add_right h2 _
      _ = 10 * 10 ^ cs.length := by ring
      _ = 10 ^ (cs.length + 1) := by rw [pow_succ]; ring

/-- Code point of a decimal digit character. -/
theorem digitChar_toNat {n : Nat} (h : n < 10) :
    (Nat.digitChar n).toNat = 48 + n := by
  interval_cases n <;> decide

/-- Decimal digit characters are digits. -/
theorem digitChar_isDigit {n : Nat} (h : n < 10) :
    (Nat.digitChar n).isDigit = true := by
  interval_cases n <;> decide

/-- The fueled digit expansion is never empty. -/
theorem digitsRevGo_ne_nil (n fuel : Nat) : digitsRevGo (fuel + 1) n ≠ [] := by
  unfold digitsRevGo
  by_cases h : n < 10 <;> simp [h]

/-- Every character of the digit expansion is a digit. -/
theorem digitsRevGo_digits : ∀ (fuel n : Nat),
    ∀ c ∈ digitsRevGo fuel n, c.isDigit = true
  | 0, n => by simp [digitsRevGo]
  | fuel + 1, n => by
    unfold digitsRevGo
    by_cases h : n < 10
    · simp only [h, if_true]
      intro c hc
      simp at hc
      rw [hc]
      exact digitChar_isDigit h
    · simp only [h, if_false]
      intro c hc
      rcases List.mem_cons.mp hc with rfl | hc2
      · exact digitChar_isDigit (Nat.mod_lt n (by omega))
      · exact digitsRevGo_digits fuel (n / 10) c hc2

/-- With sufficient fuel, parsing the rendered digits recovers the
number. -/
theorem valD_digitsRev : ∀ (fuel n : Nat), n < 10 ^ fuel →
    valD ((digitsRevGo fuel n).reverse) = n
  | 0, n, h => by
    have hn : n = 0 := by simpa [Nat.lt_one_iff] using h
    simp [digitsRevGo, valD, hn]
  | fuel + 1, n, h => by
    unfold digitsRevGo
    by_cases h10 : n < 10
    · rw [if_pos h10, List.reverse_singleton]
      have hv : valD [Nat.digitChar n] = (Nat.digitChar n).toNat - 48 := by
        simp [valD]
      rw [hv, digitChar_toNat h10]
      omega
    · rw [if_neg h10, List.reverse_cons]
      rw [valD_append_singleton]
      have hdiv : n / 10 < 10 ^ fuel := by
        rw [Nat.div_lt_iff_lt_mul (by omega)]
        calc n < 10 ^ (fuel + 1) := h
          _ = 10 ^ fuel * 10 := by rw [pow_succ]
      rw [valD_digitsRev fuel (n / 10) hdiv]
      rw [digitChar_toNat (Nat.mod_lt n (by omega))]
      omega

/-- Parsing the canonical decimal rendering recovers the number. -/
theorem valD_natToStr (n : Nat) : valD (natToStr n).data = n := by
  show valD (digitsRevGo (n + 1) n).reverse = n
  apply valD_digitsRev
  have h1 : n < 10 ^ n := Nat.lt_pow_self (by omega) n
  have h2 : 10 ^ n ≤ 10 ^ (n + 1) := Nat.pow_le_pow_right (by omega) (by omega)
  omega

/-- The canonical decimal rendering consists of digits. -/
theorem natToStr_digits (n : Nat) :
    (natToStr n).data.all (fun c => c.isDigit) = true := by
  have hshow : (natToStr n).data = (digitsRevGo (n + 1) n).reverse := rfl
  rw [hshow, List.all_eq_true]
  intro c hc
  exact digitsRevGo_digits (n + 1) n c (List.mem_reverse.mp hc)

/-- The canonical decimal rendering is never the empty string. -/
theorem natToStr_ne_empty (n : Nat) : natToStr n ≠ "" := by
  intro h
  have hd := congrArg String.data h
  have hshow : (natToStr n).data = (digitsRevGo (n + 1) n).reverse := rfl
  rw [hshow] at hd
  have : digitsRevGo (n + 1) n = [] := by
    have := List.reverse_eq_nil_iff.mp hd
    exact this
  exact digitsRevGo_ne_nil n n this

/-- Leading zeros do not change the parsed value. -/
theorem valD_replicate_zero (k : Nat) (l : List Char) :
    valD (List.replicate k '0' ++ l) = valD l := by
  induction k with
  | zero => simp
  | succ m ih =>
    simp only [List.replicate_succ, List.cons_append]
    unfold valD
    simp only [List.foldl_cons]
    have h0 : (0 * 10 + ('0'.toNat - 48)) = 0 := by decide
    rw [h0]
    exact ih

/-- Round-trip of the block-number codec: every canonical decimal string
of at most ten digits encodes and decodes back to itself, and every
longer input is rejected with the encoding error rather than silently
truncated. -/
theorem encode_decode_roundtrip :
    (∀ m : Nat, (natToStr m).length ≤ 10 →
      ∃ p, encodeNumber (natToStr m) = .ok p ∧ decodeNumber p = natToStr m) ∧
    (∀ s : String, 10 < s.length → encodeNumber s =
      .error "Database cannot encode number greater than 10 digits") := by
  constructor
  · intro m hm
    refine ⟨padStart (natToStr m) 10 '0', ?_, ?_⟩
    · simp [encodeNumber, show ¬ ((natToStr m).length > 10) by omega]
    · have hdata : (padStart (natToStr m) 10 '0').data =
          List.replicate (10 - (natToStr m).length) '0' ++ (natToStr m).data := by
        simp [padStart, String.data_append]
      have hne : ¬ (padStart (natToStr m) 10 '0' = "") := by
        intro h
        have hd := congrArg String.data h
        rw [hdata] at hd
        simp at hd
        exact natToStr_ne_empty m (String.ext hd.2)
      have hall : (padStart (natToStr m) 10 '0').data.all
          (fun c => c.isDigit) = true := by
        rw [hdata, List.all_eq_true]
        intro c hc
        rcases List.mem_append.mp hc with hc2 | hc2
        · rw [List.eq_of_mem_replicate hc2]
          decide
        · have hh := natToStr_digits m
          rw [List.all_eq_true] at hh
          exact hh c hc2
      rw [decodeNumber]
      simp only [hne, if_false, hall, if_true]
      rw [hdata, valD_replicate_zero, valD_natToStr]
  · intro s hs
    simp [encodeNumber, hs]

/-- Witness instance of the codec round-trip at a concrete number and a
concrete overlong input. -/
theorem encode_decode_roundtrip_witness :
    ((natToStr 95).length ≤ 10 ∧
      ∃ p, encodeNumber (natToStr 95) = .ok p ∧ decodeNumber p = natToStr 95) ∧
    (10 < ("12345678901" : String).length ∧
      encodeNumber "12345678901" =
        .error "Database cannot encode number greater than 10 digits") :=
  ⟨⟨by decide, encode_decode_roundtrip.1 95 (by decide)⟩,
   ⟨by decide, encode_decode_roundtrip.2 "12345678901" (by decide)⟩⟩


/-- On equal-length digit strings the byte order coincides with the
numeric order. -/
theorem valD_lt_strLtL : ∀ {a b : List Char}, a.length = b.length →
    (∀ c ∈ a, c.isDigit = true) → (∀ c ∈ b, c.isDigit = true) →
    valD a < valD b → strLtL a b = true
  | [], [], _, _, _, h => by simp [valD] at h
  | [], _ :: _, hlen, _, _, _ => by simp at hlen
  | _ :: _, [], hlen, _, _, _ => by simp at hlen
  | a0 :: as, b0 :: bs, hlen, ha, hb, h => by
    have hlen2 : as.length = bs.length := by simpa using hlen
    have ha0 := isDigit_bounds (ha a0 (by simp))
    have hb0 := isDigit_bounds (hb b0 (by simp))
    have has : ∀ c ∈ as, c.isDigit = true := fun c hc => ha c (by simp [hc])
    have hbs : ∀ c ∈ bs, c.isDigit = true := fun c hc => hb c (by simp [hc])
    rw [valD_cons, valD_cons, hlen2] at h
    by_cases hab : a0.toNat < b0.toNat
    · simp [strLtL, hab]
    · by_cases hba : b0.toNat < a0.toNat
      · exfalso
        have hvb := valD_lt bs hbs
        have hd : (b0.toNat - 48) + 1 ≤ a0.toNat - 48 := by omega
        have h1 : ((b0.toNat - 48) + 1) * 10 ^ bs.length ≤
            (a0.toNat - 48) * 10 ^ bs.length := Nat.mul_le_mul_right _ hd
        have h3 : (b0.toNat - 48) * 10 ^ bs.length + valD bs <
            (b0.toNat - 48) * 10 ^ bs.length + 10 ^ bs.length :=
          Nat.add_lt_add_left hvb _
        have h4 : (b0.toNat - 48) * 10 ^ bs.length + 10 ^ bs.length =
            ((b0.toNat - 48) + 1) * 10 ^ bs.length := by ring
        have h5 : (b0.toNat - 48) * 10 ^ bs.length + valD bs <
            (a0.toNat - 48) * 10 ^ bs.length := by
          rw [h4] at h3
          exact lt_of_lt_of_le h3 h1
        have h6 : (a0.toNat - 48) * 10 ^ bs.length ≤
            (a0.toNat - 48) * 10 ^ bs.length + valD as := Nat.le_add_right _ _
        exact Nat.lt_asymm h (lt_of_lt_of_le h5 h6)
      · have h0 : a0 = b0 := charToNat_inj (by omega)
        subst h0
        have h2 : valD as < valD bs := Nat.lt_of_add_lt_add_left h
        simp only [strLtL, Nat.lt_irrefl, if_false]
        exact valD_lt_strLtL hlen2 has hbs h2

/-- Strict order on equal-length strings survives appending
arbitrary suffixes. -/
theorem strLtL_append_lt : ∀ {a b : List Char}, a.length = b.length →
    strLtL a b = true → ∀ (u v : List Char), strLtL (a ++ u) (b ++ v) = true
  | [], [], _, h, _, _ => by simp [strLtL] at h
  | [], _ :: _, hlen, _, _, _ => by simp at hlen
  | _ :: _, [], hlen, _, _, _ => by simp at hlen
  | a0 :: as, b0 :: bs, hlen, h, u, v => by
    have hlen2 : as.length = bs.length := by simpa using hlen
    simp only [List.cons_append, strLtL] at h ⊢
    by_cases hab : a0.toNat < b0.toNat
    · simp [hab]
    · by_cases hba : b0.toNat < a0.toNat
      · simp [hab, hba] at h
      · simp only [hab, if_false, hba] at h ⊢
        exact strLtL_append_lt hlen2 h u v

/-- Amended changed-range contract: an inverted window is not rejected
with an error of any kind; the padded scan range is empty, no marker is
visited, and the query returns the empty list. -/
theorem getIdsChanged_inverted_window (ci : Store String) (f t : Nat)
    (hlt : t < f) (hf : (natToStr f).length ≤ 10)
    (ht : (natToStr t).length ≤ 10) :
    getIdsChanged ci (natToStr f) (some (natToStr t)) = .ok [] := by
  have hef : encodeNumber (natToStr f) = .ok (padStart (natToStr f) 10 '0') := by
    simp [encodeNumber, show ¬ ((natToStr f).length > 10) by omega]
  have het : encodeNumber (natToStr t) = .ok (padStart (natToStr t) 10 '0') := by
    simp [encodeNumber, show ¬ ((natToStr t).length > 10) by omega]
  have hdataf : (padStart (natToStr f) 10 '0').data =
      List.replicate (10 - (natToStr f).length) '0' ++ (natToStr f).data := by
    simp [padStart, String.data_append]
  have hdatat : (padStart (natToStr t) 10 '0').data =
      List.replicate (10 - (natToStr t).length) '0' ++ (natToStr t).data := by
    simp [padStart, String.data_append]
  have hlenf : (padStart (natToStr f) 10 '0').data.length = 10 := by
    rw [hdataf]
    simp only [List.length_append, List.length_replicate]
    have hsl : (natToStr f).data.length = (natToStr f).length := rfl
    omega
  have hlent : (padStart (natToStr t) 10 '0').data.length = 10 := by
    rw [hdatat]
    simp only [List.length_append, List.length_replicate]
    have hsl : (natToStr t).data.length = (natToStr t).length := rfl
    omega
  have hdigf : ∀ c ∈ (padStart (natToStr f) 10 '0').data, c.isDigit = true := by
    rw [hdataf]
    intro c hc
    rcases List.mem_append.mp hc with hc2 | hc2
    · rw [List.eq_of_mem_replicate hc2]
      decide
    · have hh := natToStr_digits f
      rw [List.all_eq_true] at hh
      exact hh c hc2
  have hdigt : ∀ c ∈ (padStart (natToStr t) 10 '0').data, c.isDigit = true := by
    rw [hdatat]
    intro c hc
    rcases List.mem_append.mp hc with hc2 | hc2
    · rw [List.eq_of_mem_replicate hc2]
      decide
    · have hh := natToStr_digits t
      rw [List.all_eq_true] at hh
      exact hh c hc2
  have hvalf : valD (padStart (natToStr f) 10 '0').data = f := by
    rw [hdataf, valD_replicate_zero, valD_natToStr]
  have hvalt : valD (padStart (natToStr t) 10 '0').data = t := by
    rw [hdatat, valD_replicate_zero, valD_natToStr]
  have hltp : strLtL (padStart (natToStr t) 10 '0').data
      (padStart (natToStr f) 10 '0').data = true := by
    apply valD_lt_strLtL (by omega) hdigt hdigf
    omega
  have hbound : strLt (padStart (natToStr t) 10 '0' ++ "/~")
      (padStart (natToStr f) 10 '0' ++ "/") = true := by
    have h2 := strLtL_append_lt (by omega) hltp ("/~" : String).data
      ("/" : String).data
    simpa [strLt, String.data_append] using h2
  have hrange : iterRange ci (padStart (natToStr f) 10 '0' ++ "/")
      (padStart (natToStr t) 10 '0' ++ "/~") = [] := by
    rw [iterRange, List.filter_eq_nil_iff]
    intro p hp
    intro hcontra
    rw [Bool.and_eq_true] at hcontra
    have htr := strLe_trans hcontra.1 hcontra.2
    rw [strLe, hbound] at htr
    simp at htr
  rw [getIdsChanged]
  simp only [Option.getD_some, hef, het, hrange, List.foldl_nil, List.map_nil]

/-- Counterexample to the stated inverted-window contract: with a marker
stored at block 100, the query from 101 back to 100 does not fail with
any InvalidRange error, it returns the empty list. -/
theorem getIdsChanged_counterexample :
    getIdsChanged [("0000000100/1/a/1", "")] "101" (some "100") = .ok [] := by
  decide

/-- Witness instance of the amended inverted-window contract. -/
theorem getIdsChanged_inverted_window_witness :
    ((100 : Nat) < 101 ∧ (natToStr 101).length ≤ 10 ∧
      (natToStr 100).length ≤ 10) ∧
    getIdsChanged [("0000000100/1/a/1", "")] (natToStr 101)
      (some (natToStr 100)) = .ok [] :=
  ⟨⟨by omega, by decide, by decide⟩,
   getIdsChanged_inverted_window [("0000000100/1/a/1", "")] 101 100 (by omega)
     (by decide) (by decide)⟩


/-- Dual-write contract of `DB.insert`: a successful insert performs
exactly the primary-index write followed by the change-index write, for
the same identity and block number; afterwards each store holds exactly
one entry under the written key, and no other key of either store
changed. -/
theorem insert_dual_write (st : DBState) (d : Datum) (data : Track)
    (hl : sortedStore st.level) (hc : sortedStore st.changeIndex)
    (hbn : d.blockNumber.length ≤ 10) :
    (insert st d data).2 = none ∧
    (insert st d data).1.level = putE st.level (datumToKey d.toQ) data ∧
    lookupE (insert st d data).1.level (datumToKey d.toQ) = some data ∧
    countKey (insert st d data).1.level (datumToKey d.toQ) = 1 ∧
    (∀ k2, k2 ≠ datumToKey d.toQ →
      lookupE (insert st d data).1.level k2 = lookupE st.level k2) ∧
    ∃ ebn, encodeNumber d.blockNumber = .ok ebn ∧
      insertOps d data = ([.putTrack (datumToKey d.toQ) data,
        .putChange (ebn ++ "/" ++ d.chainId ++ "/" ++ d.address ++ "/" ++
          d.tokenId) ""], none) ∧
      (insert st d data).1.changeIndex = putE st.changeIndex
        (ebn ++ "/" ++ d.chainId ++ "/" ++ d.address ++ "/" ++ d.tokenId) "" ∧
      lookupE (insert st d data).1.changeIndex
        (ebn ++ "/" ++ d.chainId ++ "/" ++ d.address ++ "/" ++ d.tokenId) =
        some "" ∧
      countKey (insert st d data).1.changeIndex
        (ebn ++ "/" ++ d.chainId ++ "/" ++ d.address ++ "/" ++ d.tokenId) = 1 ∧
      (∀ k2, k2 ≠ ebn ++ "/" ++ d.chainId ++ "/" ++ d.address ++ "/" ++
          d.tokenId →
        lookupE (insert st d data).1.changeIndex k2 =
          lookupE st.changeIndex k2) := by
  have hgt : ¬ (d.blockNumber.length > 10) := by omega
  have hck : datumToChangeKey d.toQ = .ok (padStart d.blockNumber 10 '0' ++
      "/" ++ d.chainId ++ "/" ++ d.address ++ "/" ++ d.tokenId) := by
    simp [datumToChangeKey, Datum.toQ, encodeNumber, hgt, jsStr]
  have hins : insert st d data =
      (⟨putE st.level (datumToKey d.toQ) data,
        putE st.changeIndex (padStart d.blockNumber 10 '0' ++ "/" ++
          d.chainId ++ "/" ++ d.address ++ "/" ++ d.tokenId) ""⟩, none) := by
    simp [insert, insertOps, hck, applyEff]
  refine ⟨by rw [hins], by rw [hins], ?_, ?_, ?_,
    padStart d.blockNumber 10 '0', ?_, by simp [insertOps, hck],
    by rw [hins], ?_, ?_, ?_⟩
  · rw [hins]
    exact lookupE_putE_self _ _ _
  · rw [hins]
    exact countKey_putE _ _ hl
  · intro k2 hne
    rw [hins]
    exact lookupE_putE_ne _ _ hne
  · simp [encodeNumber, hgt]
  · rw [hins]
    exact lookupE_putE_self _ _ _
  · rw [hins]
    exact countKey_putE _ _ hc
  · intro k2 hne
    rw [hins]
    exact lookupE_putE_ne _ _ hne

/-- Witness instance of the dual-write contract on an empty state. -/
theorem insert_dual_write_witness :
    (("95" : String).length ≤ 10 ∧
      (insert ⟨[], []⟩ ⟨"1", "0x13", "5", "95"⟩ "pay").2 = none) ∧
    insert ⟨[], []⟩ ⟨"1", "0x13", "5", "95"⟩ "pay" =
      (⟨[("1/0x13/5/95", "pay")], [("0000000095/1/0x13/5", "")]⟩, none) :=
  ⟨⟨by decide, (insert_dual_write ⟨[], []⟩ ⟨"1", "0x13", "5", "95"⟩ "pay"
    (by decide) (by decide) (by decide)).1⟩, by decide⟩

/-! ### Rebuilding the change index -/

/-- A key holding the marker value keeps it through a rebuild. -/
theorem rebuildLoop_marked : ∀ (es : List (String × Track))
    (ci : Store String) (count : Nat) {k : String},
    lookupE ci k = some "" → lookupE (rebuildLoop es ci count).1 k = some ""
  | [], _, _, _, h => h
  | (k1, v1) :: rest, ci, count, k, h => by
    rw [rebuildLoop]
    cases hck : datumToChangeKey (keyToDatum k1) with
    | error e => simpa using h
    | ok ck =>
      apply rebuildLoop_marked rest
      by_cases hkc : k = ck
      · subst hkc
        exact lookupE_putE_self _ _ _
      · rw [lookupE_putE_ne _ _ hkc]
        exact h

/-- A rebuild never removes a pre-existing key. -/
theorem rebuildLoop_preserves : ∀ (es : List (String × Track))
    (ci : Store String) (count : Nat) {k : String},
    (∃ v, lookupE ci k = some v) →
    ∃ v, lookupE (rebuildLoop es ci count).1 k = some v
  | [], _, _, _, h => h
  | (k1, v1) :: rest, ci, count, k, h => by
    rw [rebuildLoop]
    cases hck : datumToChangeKey (keyToDatum k1) with
    | error e => simpa using h
    | ok ck =>
      apply rebuildLoop_preserves rest
      by_cases hkc : k = ck
      · subst hkc
        exact ⟨"", lookupE_putE_self _ _ _⟩
      · rw [lookupE_putE_ne _ _ hkc]
        exact h

/-- Rebuilding preserves the sortedness invariant. -/
theorem rebuildLoop_sorted : ∀ (es : List (String × Track))
    (ci : Store String) (count : Nat), sortedStore ci →
    sortedStore (rebuildLoop es ci count).1
  | [], _, _, h => h
  | (k1, v1) :: rest, ci, count, h => by
    rw [rebuildLoop]
    cases hck : datumToChangeKey (keyToDatum k1) with
    | error e => simpa using h
    | ok ck => exact rebuildLoop_sorted rest _ _ (putE_sorted _ _ h)

/-- A present value is found as a pair of the store. -/
theorem lookupE_mem {V : Type} {s : Store V} {k : String} {v : V}
    (h : lookupE s k = some v) : (k, v) ∈ s := by
  unfold lookupE at h
  obtain ⟨q, hq1, hq2⟩ := Option.map_eq_some'.mp h
  have hqm := List.mem_of_find?_eq_some hq1
  have hqp := List.find?_some hq1
  obtain ⟨qk, qv⟩ := q
  simp at hqp hq2
  rw [← hqp, ← hq2]
  exact hqm

/-- Rewriting a key with the value it already holds changes nothing in
a sorted store. -/
theorem putE_invariant {V : Type} : ∀ {s : Store V} {k : String} {v : V},
    sortedStore s → lookupE s k = some v → putE s k v = s := by
  intro s
  induction s with
  | nil => intro k v _ h; simp [lookupE, List.find?] at h
  | cons p rest ih =>
    intro k v hs h
    obtain ⟨k2, v2⟩ := p
    have hs2 : List.Pairwise (fun p q : String × V => strLt p.1 q.1 = true)
        ((k2, v2) :: rest) := hs
    rw [List.pairwise_cons] at hs2
    by_cases h2 : k2 = k
    · subst h2
      have hv : v2 = v := by
        simpa [lookupE, List.find?] using h
      simp only [putE, strLt_irrefl, Bool.false_eq_true, if_false,
        eq_self_iff_true, if_true, hv]
    · have hrest : lookupE rest k = some v := by
        simpa [lookupE, List.find?, h2] using h
      have hmem := lookupE_mem hrest
      have hlt : strLt k2 k = true := hs2.1 _ hmem
      cases h1 : strLt k k2 with
      | true =>
        exfalso
        have := strLt_trans h1 hlt
        rw [strLt_irrefl] at this
        simp at this
      | false =>
        rw [putE]
        rw [h1]
        simp only [Bool.false_eq_true, if_false,
          show ¬ (k = k2) from fun hh => h2 hh.symm]
        rw [ih hs2.2 hrest]

/-- Running the rebuild scan twice from the same primary snapshot leaves
the change index exactly as after one run. -/
theorem rebuildLoop_idem : ∀ (es : List (String × Track)) (ci : Store String)
    (c1 c2 : Nat), sortedStore ci →
    (rebuildLoop es (rebuildLoop es ci c1).1 c2).1 = (rebuildLoop es ci c1).1
  | [], _, _, _, _ => rfl
  | (k1, v1) :: rest, ci, c1, c2, hs => by
    cases hck : datumToChangeKey (keyToDatum k1) with
    | error e => simp only [rebuildLoop, hck]
    | ok ck =>
      simp only [rebuildLoop, hck]
      have hsorted : sortedStore (putE ci ck "") := putE_sorted _ _ hs
      have hmarked : lookupE (rebuildLoop rest (putE ci ck "") (c1 + 1)).1 ck =
          some "" :=
        rebuildLoop_marked rest _ _ (lookupE_putE_self _ _ _)
      have hsorted2 :
          sortedStore (rebuildLoop rest (putE ci ck "") (c1 + 1)).1 :=
        rebuildLoop_sorted rest _ _ hsorted
      rw [putE_invariant hsorted2 hmarked]
      exact rebuildLoop_idem rest (putE ci ck "") (c1 + 1) (c2 + 1) hsorted

/-- Idempotence and additivity of `DB.createChangeIndex`: running the
rebuild twice over the same primary index leaves the change index equal
to one run, and a rebuild never removes a pre-existing marker key. -/
theorem createChangeIndex_idem (st : DBState) (hc : sortedStore st.changeIndex) :
    (createChangeIndex ⟨st.level, (createChangeIndex st).1⟩).1 =
      (createChangeIndex st).1 ∧
    ∀ k v, lookupE st.changeIndex k = some v →
      ∃ v2, lookupE (createChangeIndex st).1 k = some v2 := by
  constructor
  · exact rebuildLoop_idem st.level st.changeIndex 0 0 hc
  · intro k v h
    exact rebuildLoop_preserves st.level st.changeIndex 0 ⟨v, h⟩

/-- Witness instance of rebuild idempotence on a concrete state with a
pre-existing marker. -/
theorem createChangeIndex_idem_witness :
    sortedStore ([("0000000001/9/z/9", "keep")] : Store String) ∧
    (createChangeIndex ⟨[("1/0x13/5/95", "pay")],
      (createChangeIndex ⟨[("1/0x13/5/95", "pay")],
        [("0000000001/9/z/9", "keep")]⟩).1⟩).1 =
      (createChangeIndex ⟨[("1/0x13/5/95", "pay")],
        [("0000000001/9/z/9", "keep")]⟩).1 :=
  ⟨by decide, (createChangeIndex_idem
    ⟨[("1/0x13/5/95", "pay")], [("0000000001/9/z/9", "keep")]⟩ (by decide)).1⟩


/-! ### The grouped query -/

/-- Membership of a well-formed key in the chain-plus-address scan range
is exactly a chain and address match. -/
theorem getMany_range_addr_iff {k cq aq : String} (hwf : WFKeyB k = true)
    (hcq : slashFreeB cq = true) (haq : slashFreeB aq = true) :
    (strLe (cq ++ "/" ++ aq ++ "/") k &&
      strLe k (cq ++ "/" ++ aq ++ "/~")) = true ↔
    matchB cq (some aq) k = true := by
  obtain ⟨c2, a2, t2, bn2, hk, hc2, ha2, ht2, hbn2, hf1, hf2, hf3, hbne, hdig⟩ :=
    wfKey_elim hwf
  have hk' : k = mkKey c2 a2 t2 bn2 := hk
  have hsplit : jsSplit k = [c2, a2, t2, bn2] := by
    rw [hk']
    exact jsSplit_mkKey hc2 ha2 ht2 hbn2
  have hmatch : matchB cq (some aq) k =
      (decide (c2 = cq) && decide (a2 = aq)) := by
    unfold matchB
    rw [hsplit]
  have hlte : cq ++ "/" ++ aq ++ "/~" = (cq ++ "/" ++ aq ++ "/") ++ "~" := by
    apply String.ext
    simp [String.data_append]
  constructor
  · intro h
    rw [Bool.and_eq_true] at h
    rw [hlte] at h
    obtain ⟨r, hkr, _⟩ := range_prefix h.1 h.2
    have hdd : k.data = cq.data ++ '/' :: (aq.data ++ '/' :: r.data) := by
      rw [hkr]
      simp [String.data_append]
    have hs1 : jsSplit k = cq :: aq :: splitL r.data := by
      unfold jsSplit
      rw [hdd, splitL_append (slashFreeB_iff.mp hcq),
        splitL_append (slashFreeB_iff.mp haq)]
    rw [hsplit] at hs1
    have hcc : c2 = cq ∧ a2 = aq ∧ [t2, bn2] = splitL r.data := by
      simpa using hs1
    rw [hmatch]
    simp [hcc.1, hcc.2.1]
  · intro h
    rw [hmatch] at h
    simp only [Bool.and_eq_true, decide_eq_true_eq] at h
    have hkr : k = (cq ++ "/" ++ aq ++ "/") ++ (t2 ++ "/" ++ bn2) := by
      rw [hk', h.1, h.2]
      apply String.ext
      simp [mkKey, String.data_append]
    have hassoc : t2 ++ "/" ++ bn2 = t2 ++ ("/" ++ bn2) := by
      apply String.ext
      simp [String.data_append]
    rw [Bool.and_eq_true, hkr, hlte]
    apply range_mem
    rw [hassoc]
    exact strLe_tilde (fieldOK_append hf3 _)

/-- Membership of a well-formed key in the chain-only scan range is
exactly a chain match. -/
theorem getMany_range_chain_iff {k cq : String} (hwf : WFKeyB k = true)
    (hcq : slashFreeB cq = true) :
    (strLe (cq ++ "/") k && strLe k (cq ++ "/~")) = true ↔
    matchB cq none k = true := by
  obtain ⟨c2, a2, t2, bn2, hk, hc2, ha2, ht2, hbn2, hf1, hf2, hf3, hbne, hdig⟩ :=
    wfKey_elim hwf
  have hk' : k = mkKey c2 a2 t2 bn2 := hk
  have hsplit : jsSplit k = [c2, a2, t2, bn2] := by
    rw [hk']
    exact jsSplit_mkKey hc2 ha2 ht2 hbn2
  have hmatch : matchB cq none k = decide (c2 = cq) := by
    unfold matchB
    rw [hsplit]
    simp
  have hlte : cq ++ "/~" = (cq ++ "/") ++ "~" := by
    apply String.ext
    simp [String.data_append]
  constructor
  · intro h
    rw [Bool.and_eq_true] at h
    rw [hlte] at h
    obtain ⟨r, hkr, _⟩ := range_prefix h.1 h.2
    have hdd : k.data = cq.data ++ '/' :: r.data := by
      rw [hkr]
      simp [String.data_append]
    have hs1 : jsSplit k = cq :: splitL r.data := by
      unfold jsSplit
      rw [hdd, splitL_append (slashFreeB_iff.mp hcq)]
    rw [hsplit] at hs1
    have hcc : c2 = cq := by
      have h0 := congrArg (fun l : List String => l[0]?) hs1
      simpa using h0
    rw [hmatch]
    simp [hcc]
  · intro h
    rw [hmatch] at h
    simp only [decide_eq_true_eq] at h
    have hkr : k = (cq ++ "/") ++ (a2 ++ "/" ++ t2 ++ "/" ++ bn2) := by
      rw [hk', h]
      apply String.ext
      simp [mkKey, String.data_append]
    have hassoc : a2 ++ "/" ++ t2 ++ "/" ++ bn2 =
        a2 ++ ("/" ++ t2 ++ "/" ++ bn2) := by
      apply String.ext
      simp [String.data_append]
    rw [Bool.and_eq_true, hkr, hlte]
    apply range_mem
    rw [hassoc]
    exact strLe_tilde (fieldOK_append hf2 _)

/-- Reduction of `getMany` on a chain-only query. -/
theorem getMany_branch_chain (s : Store Track) (cq : String)
    (cutoff : Option String) :
    getMany s ⟨some cq, none, none, cutoff⟩ =
      (match iterRange s (cq ++ "/") (cq ++ "/~") with
      | [] => .error "Couldn't find any items for the given DB query"
      | (k, v) :: rest => .ok (getManyLoop
          (if truthy cutoff then jsStr cutoff else "9007199254740991")
          (keyToDatum k) ⟨keyToDatum k, v⟩ rest)) := rfl

/-- Reduction of `getMany` on a chain-plus-address query. -/
theorem getMany_branch_addr (s : Store Track) (cq aq : String)
    (cutoff : Option String) (haq : aq ≠ "") :
    getMany s ⟨some cq, some aq, none, cutoff⟩ =
      (match iterRange s (cq ++ "/" ++ aq ++ "/") (cq ++ "/" ++ aq ++ "/~") with
      | [] => .error "Couldn't find any items for the given DB query"
      | (k, v) :: rest => .ok (getManyLoop
          (if truthy cutoff then jsStr cutoff else "9007199254740991")
          (keyToDatum k) ⟨keyToDatum k, v⟩ rest)) := by
  simp [getMany, truthy, haq, jsStr]

/-- The `getMany` scan selects exactly the prefix-matching entries
(chain-only form). -/
theorem getMany_filter_chain {s : Store Track} {cq : String}
    (hwf : ∀ p ∈ s, WFKeyB p.1 = true) (hcq : slashFreeB cq = true) :
    iterRange s (cq ++ "/") (cq ++ "/~") =
      s.filter (fun p => matchB cq none p.1) := by
  rw [iterRange]
  apply List.filter_congr
  intro p hp
  apply Bool.eq_iff_iff.mpr
  exact getMany_range_chain_iff (hwf p hp) hcq

/-- The `getMany` scan selects exactly the prefix-matching entries
(chain-plus-address form). -/
theorem getMany_filter_addr {s : Store Track} {cq aq : String}
    (hwf : ∀ p ∈ s, WFKeyB p.1 = true) (hcq : slashFreeB cq = true)
    (haq : slashFreeB aq = true) :
    iterRange s (cq ++ "/" ++ aq ++ "/") (cq ++ "/" ++ aq ++ "/~") =
      s.filter (fun p => matchB cq (some aq) p.1) := by
  rw [iterRange]
  apply List.filter_congr
  intro p hp
  apply Bool.eq_iff_iff.mpr
  exact getMany_range_addr_iff (hwf p hp) hcq haq

/-- When no stored key matches the query prefix, `getMany` throws the
empty-query error on its first iterator step, instead of yielding an
empty sequence. -/
theorem getMany_no_match_error (s : Store Track) (cq : String)
    (addr : Option String) (cutoff : Option String)
    (hwf : ∀ p ∈ s, WFKeyB p.1 = true) (hcq : slashFreeB cq = true)
    (haddr : ∀ aq, addr = some aq → (slashFreeB aq = true ∧ aq ≠ ""))
    (hnone : ∀ p ∈ s, matchB cq addr p.1 = false) :
    getMany s ⟨some cq, addr, none, cutoff⟩ =
      .error "Couldn't find any items for the given DB query" := by
  have hempty : s.filter (fun p => matchB cq addr p.1) = [] := by
    rw [List.filter_eq_nil_iff]
    intro p hp
    simp [hnone p hp]
  cases addr with
  | none =>
    rw [getMany_branch_chain, getMany_filter_chain hwf hcq, hempty]
  | some aq =>
    rw [getMany_branch_addr s cq aq cutoff (haddr aq rfl).2,
      getMany_filter_addr hwf hcq (haddr aq rfl).1, hempty]

/-- Witness instance of the empty-query error: a store holding only a
key of another chain, and the empty store. -/
theorem getMany_no_match_error_witness :
    (∀ p ∈ [("2/0xb8/1/110", "A")], WFKeyB (Prod.fst p) = true) ∧
    getMany [("2/0xb8/1/110", "A")] ⟨some "1", some "0xb8", none, none⟩ =
      .error "Couldn't find any items for the given DB query" ∧
    getMany ([] : Store Track) ⟨some "1", none, none, none⟩ =
      .error "Couldn't find any items for the given DB query" :=
  ⟨by decide,
   getMany_no_match_error [("2/0xb8/1/110", "A")] "1" (some "0xb8") none
     (by decide) (by decide)
     (fun aq h => by
       constructor
       · rw [show aq = "0xb8" by injection h with h2; exact h2.symm]
         decide
       · rw [show aq = "0xb8" by injection h with h2; exact h2.symm]
         decide)
     (by decide),
   getMany_no_match_error [] "1" none none (by decide) (by decide)
     (fun aq h => by simp at h) (by decide)⟩


/-! ### The insertion-ordered map of the changed-identities query -/

/-- Membership in the seen-set deduplication. -/
theorem mem_dedupFirstAux {α : Type} [DecidableEq α] {x : α} :
    ∀ (seen l : List α), x ∈ dedupFirstAux seen l ↔ x ∈ l ∧ x ∉ seen := by
  intro seen l
  induction l generalizing seen with
  | nil => simp [dedupFirstAux]
  | cons a l2 ih =>
    by_cases ha : a ∈ seen
    · rw [dedupFirstAux, if_pos ha, ih]
      constructor
      · intro h
        exact ⟨List.mem_cons_of_mem _ h.1, h.2⟩
      · intro h
        rcases List.mem_cons.mp h.1 with rfl | h2
        · exact absurd ha h.2
        · exact ⟨h2, h.2⟩
    · rw [dedupFirstAux, if_neg ha]
      by_cases hx : x = a
      · subst hx
        simp [ha]
      · constructor
        · intro h
          rcases List.mem_cons.mp h with h2 | h2
          · exact absurd h2 hx
          · have := (ih (a :: seen)).mp h2
            refine ⟨List.mem_cons_of_mem _ this.1, ?_⟩
            intro hc
            exact this.2 (List.mem_cons_of_mem _ hc)
        · intro h
          rcases List.mem_cons.mp h.1 with rfl | h2
          · exact absurd rfl hx
          · apply List.mem_cons_of_mem
            apply (ih (a :: seen)).mpr
            refine ⟨h2, ?_⟩
            intro hc
            rcases List.mem_cons.mp hc with rfl | hc2
            · exact hx rfl
            · exact h.2 hc2

/-- The deduplicated key list has no duplicates. -/
theorem dedupFirstAux_nodup {α : Type} [DecidableEq α] :
    ∀ (seen l : List α), (dedupFirstAux seen l).Nodup := by
  intro seen l
  induction l generalizing seen with
  | nil => simp [dedupFirstAux]
  | cons a l2 ih =>
    by_cases ha : a ∈ seen
    · rw [dedupFirstAux, if_pos ha]
      exact ih seen
    · rw [dedupFirstAux, if_neg ha]
      refine List.nodup_cons.mpr ⟨?_, ih (a :: seen)⟩
      intro hc
      exact ((mem_dedupFirstAux (a :: seen) l2).mp hc).2 (List.mem_cons_self a seen)

/-- Appending one element to the deduplication input. -/
theorem dedupFirstAux_append {α : Type} [DecidableEq α] (x : α) :
    ∀ (seen l : List α), dedupFirstAux seen (l ++ [x]) =
      dedupFirstAux seen l ++ (if x ∈ seen ∨ x ∈ l then [] else [x]) := by
  intro seen l
  induction l generalizing seen with
  | nil =>
    simp only [List.nil_append, dedupFirstAux]
    by_cases hx : x ∈ seen
    · simp [hx]
    · simp [hx]
  | cons a l2 ih =>
    by_cases ha : a ∈ seen
    · simp only [List.cons_append, dedupFirstAux, if_pos ha, List.append_eq]
      rw [ih seen]
      by_cases hxa : x = a
      · subst hxa
        simp [ha]
      · simp only [List.mem_cons]
        by_cases h1 : x ∈ seen ∨ x ∈ l2
        · rw [if_pos h1, if_pos (by
            rcases h1 with h | h
            · exact Or.inl h
            · exact Or.inr (Or.inr h))]
        · rw [if_neg h1, if_neg (by
            intro hc
            rcases hc with h | h | h
            · exact h1 (Or.inl h)
            · exact hxa h
            · exact h1 (Or.inr h))]
    · simp only [List.cons_append, dedupFirstAux, if_neg ha, List.append_eq]
      rw [ih (a :: seen)]
      by_cases hxa : x = a
      · subst hxa
        simp
      · simp only [List.mem_cons]
        by_cases h1 : x ∈ seen ∨ x ∈ l2
        · rw [if_pos (by
            rcases h1 with h | h
            · exact Or.inl (Or.inr h)
            · exact Or.inr h),
            if_pos (by
            rcases h1 with h | h
            · exact Or.inl h
            · exact Or.inr (Or.inr h))]
        · rw [if_neg (by
            intro hc
            rcases hc with h | h
            · rcases h with h | h
              · exact hxa h
              · exact h1 (Or.inl h)
            · exact h1 (Or.inr h)),
            if_neg (by
            intro hc
            rcases hc with h | h | h
            · exact h1 (Or.inl h)
            · exact hxa h
            · exact h1 (Or.inr h))]

/-- Appending one pair to the last-value view. -/
theorem lastValFor_append (ps : List (String × String)) (q : String × String)
    (k : String) : lastValFor (ps ++ [q]) k =
      if k = q.1 then some q.2 else lastValFor ps k := by
  unfold lastValFor
  rw [List.filter_append]
  by_cases hk : k = q.1
  · have hq : List.filter (fun p => decide (p.1 = k)) [q] = [q] := by
      simp [List.filter, hk.symm]
    rw [hq, List.getLast?_concat]
    simp [hk]
  · have hq : List.filter (fun p => decide (p.1 = k)) [q] = [] := by
      simp [List.filter, show ¬ (q.1 = k) from fun hc => hk hc.symm]
    rw [hq, List.append_nil, if_neg hk]

/-- A key seen among the pairs has a last value. -/
theorem lastValFor_isSome {ps : List (String × String)} {k : String}
    (h : k ∈ ps.map (fun q => q.1)) : ∃ v, lastValFor ps k = some v := by
  obtain ⟨q, hq, hqk⟩ := List.mem_map.mp h
  have hmem : q ∈ ps.filter (fun p => decide (p.1 = k)) :=
    List.mem_filter.mpr ⟨hq, by simp [hqk]⟩
  have hne : ps.filter (fun p => decide (p.1 = k)) ≠ [] :=
    List.ne_nil_of_mem hmem
  obtain ⟨x, hx⟩ := Option.ne_none_iff_exists'.mp
    (mt List.getLast?_eq_none_iff.mp hne)
  exact ⟨x.2, by simp [lastValFor, hx]⟩

/-- Updating the value stored under one key of a keyed filter-map. -/
theorem filterMap_update (x : String) (w : String) :
    ∀ (ks : List String) (f : String → Option String),
    (∀ k ∈ ks, k = x → (f k).isSome = true) →
    (ks.filterMap (fun k => (f k).map (fun v => (k, v)))).map
        (fun p => if p.1 = x then (x, w) else p) =
      ks.filterMap (fun k =>
        ((if k = x then some w else f k).map (fun v => (k, v)))) := by
  intro ks
  induction ks with
  | nil => simp
  | cons k ks2 ih =>
    intro f hx
    cases hf : f k with
    | none =>
      have hkx : ¬ (k = x) := by
        intro hc
        have := hx k (by simp) hc
        rw [hf] at this
        simp at this
      simp only [List.filterMap_cons, hf, Option.map_none', if_neg hkx]
      exact ih f (fun k2 hk2 => hx k2 (by simp [hk2]))
    | some v =>
      simp only [List.filterMap_cons, hf, Option.map_some']
      have hrest := ih f (fun k2 hk2 => hx k2 (by simp [hk2]))
      by_cases hkx : k = x
      · subst hkx
        simp [hrest]
      · simp [hrest, hkx, hf]


/-- A JavaScript `Map` built by repeated `set` holds, in order of first
key occurrence, the last value written for each key. -/
theorem foldl_mapSet_spec : ∀ ps : List (String × String),
    ps.foldl (fun acc q => mapSet acc q.1 q.2) [] =
      (dedupFirstAux [] (ps.map (fun q => q.1))).filterMap
        (fun k => (lastValFor ps k).map (fun v => (k, v))) := by
  intro ps
  induction ps using List.reverseRecOn with
  | nil => simp [dedupFirstAux]
  | append_singleton ps q ih =>
    rw [List.foldl_append]
    simp only [List.foldl_cons, List.foldl_nil]
    rw [ih, List.map_append, List.map_singleton, dedupFirstAux_append]
    by_cases hq : q.1 ∈ ps.map (fun q => q.1)
    · rw [if_pos (Or.inr hq), List.append_nil]
      have hmem : q.1 ∈ dedupFirstAux [] (ps.map (fun q => q.1)) :=
        (mem_dedupFirstAux _ _).mpr ⟨hq, by simp⟩
      obtain ⟨v0, hv0⟩ := lastValFor_isSome hq
      have hany : ((dedupFirstAux [] (ps.map (fun q => q.1))).filterMap
          (fun k => (lastValFor ps k).map (fun v => (k, v)))).any
          (fun p => p.1 = q.1) = true := by
        apply List.any_eq_true.mpr
        refine ⟨(q.1, v0), ?_, by simp⟩
        apply List.mem_filterMap.mpr
        exact ⟨q.1, hmem, by simp [hv0]⟩
      rw [mapSet, if_pos hany]
      rw [filterMap_update q.1 q.2 _ (lastValFor ps) (fun k hk he => by
        subst he
        obtain ⟨v1, hv1⟩ := lastValFor_isSome hq
        simp [hv1])]
      apply List.filterMap_congr
      intro k hk
      rw [lastValFor_append]
    · rw [if_neg (by
        intro hc
        rcases hc with hc | hc
        · simp at hc
        · exact hq hc)]
      have hany : ((dedupFirstAux [] (ps.map (fun q => q.1))).filterMap
          (fun k => (lastValFor ps k).map (fun v => (k, v)))).any
          (fun p => p.1 = q.1) = false := by
        apply List.any_eq_false.mpr
        intro p hp
        obtain ⟨k, hk, hpk⟩ := List.mem_filterMap.mp hp
        obtain ⟨v1, hv1, hpv⟩ := Option.map_eq_some'.mp hpk
        have hkps : k ∈ ps.map (fun q => q.1) :=
          ((mem_dedupFirstAux _ _).mp hk).1
        rw [← hpv]
        simp only [decide_eq_true_eq]
        intro hc
        rw [hc] at hkps
        exact hq hkps
      rw [mapSet, if_neg (by rw [hany]; simp)]
      rw [List.filterMap_append]
      have h1 : (dedupFirstAux [] (ps.map (fun q => q.1))).filterMap
          (fun k => (lastValFor (ps ++ [q]) k).map (fun v => (k, v))) =
          (dedupFirstAux [] (ps.map (fun q => q.1))).filterMap
          (fun k => (lastValFor ps k).map (fun v => (k, v))) := by
        apply List.filterMap_congr
        intro k hk
        have hkps : k ∈ ps.map (fun q => q.1) :=
          ((mem_dedupFirstAux _ _).mp hk).1
        have hne : ¬ (k = q.1) := by
          intro hc
          rw [hc] at hkps
          exact hq hkps
        rw [lastValFor_append, if_neg hne]
      rw [h1]
      have h2 : List.filterMap
          (fun k => (lastValFor (ps ++ [q]) k).map (fun v => (k, v))) [q.1] =
          [(q.1, q.2)] := by
        simp [List.filterMap, lastValFor_append]
      rw [h2]

/-- Amended changed-window contract of `DB.getIdsChanged`: the query
returns at most one fully-qualified key per distinct identity, listed at
the position of the identity's first in-window marker, but carrying the
block number of the identity's last-encountered in-window marker — the
latest qualifying block, not the earliest. -/
theorem getIdsChanged_last_per_identity (ci : Store String) (fromB : String)
    (toB : Option String) {ef et : String}
    (hef : encodeNumber fromB = .ok ef)
    (het : encodeNumber (toB.getD fromB) = .ok et) :
    getIdsChanged ci fromB toB = .ok
      ((dedupFirstAux [] ((iterRange ci (ef ++ "/") (et ++ "/~")).map
          (fun p => nidOfKey p.1))).filterMap
        (fun k => lastValFor ((iterRange ci (ef ++ "/") (et ++ "/~")).map
          (fun p => (nidOfKey p.1, idOfKey p.1))) k)) ∧
    (dedupFirstAux [] ((iterRange ci (ef ++ "/") (et ++ "/~")).map
      (fun p => nidOfKey p.1))).Nodup := by
  constructor
  · rw [getIdsChanged]
    simp only [hef, het]
    have hfold : (iterRange ci (ef ++ "/") (et ++ "/~")).foldl
        (fun acc p => mapSet acc (nidOfKey p.1) (idOfKey p.1)) [] =
        ((iterRange ci (ef ++ "/") (et ++ "/~")).map
          (fun p => (nidOfKey p.1, idOfKey p.1))).foldl
          (fun acc q => mapSet acc q.1 q.2) [] := by
      rw [List.foldl_map]
    rw [hfold, foldl_mapSet_spec]
    have hkeys : ((iterRange ci (ef ++ "/") (et ++ "/~")).map
        (fun p => (nidOfKey p.1, idOfKey p.1))).map (fun q => q.1) =
        (iterRange ci (ef ++ "/") (et ++ "/~")).map (fun p => nidOfKey p.1) := by
      rw [List.map_map]
      rfl
    rw [hkeys]
    rw [List.map_filterMap]
    congr 1
    apply List.filterMap_congr
    intro k hk
    cases h : lastValFor ((iterRange ci (ef ++ "/") (et ++ "/~")).map
        (fun p => (nidOfKey p.1, idOfKey p.1))) k with
    | none => rfl
    | some v => rfl
  · exact dedupFirstAux_nodup _ _

/-- Counterexample to the first-encountered contract: markers for one
identity at blocks 100 and 101 produce the block-101 key, the latest
marker, not the earliest one. -/
theorem getIdsChanged_first_counterexample :
    getIdsChanged [("0000000100/1/a/1", ""), ("0000000101/1/a/1", "")]
        "100" (some "101") = .ok ["1/a/1/101"] ∧
    ¬ (getIdsChanged [("0000000100/1/a/1", ""), ("0000000101/1/a/1", "")]
        "100" (some "101") = .ok ["1/a/1/100"]) := by decide

/-- Witness instance of the amended changed-window contract on the
two-marker store. -/
theorem getIdsChanged_last_per_identity_witness :
    (encodeNumber "100" = .ok "0000000100" ∧
      encodeNumber ((some "101").getD "100") = .ok "0000000101") ∧
    getIdsChanged [("0000000100/1/a/1", ""), ("0000000101/1/a/1", "")]
        "100" (some "101") = .ok
      ((dedupFirstAux [] ((iterRange
          [("0000000100/1/a/1", ""), ("0000000101/1/a/1", "")]
          ("0000000100" ++ "/") ("0000000101" ++ "/~")).map
          (fun p => nidOfKey p.1))).filterMap
        (fun k => lastValFor ((iterRange
          [("0000000100/1/a/1", ""), ("0000000101/1/a/1", "")]
          ("0000000100" ++ "/") ("0000000101" ++ "/~")).map
          (fun p => (nidOfKey p.1, idOfKey p.1))) k)) ∧
    ((dedupFirstAux [] ((iterRange
        [("0000000100/1/a/1", ""), ("0000000101/1/a/1", "")]
        ("0000000100" ++ "/") ("0000000101" ++ "/~")).map
        (fun p => nidOfKey p.1))).filterMap
      (fun k => lastValFor ((iterRange
        [("0000000100/1/a/1", ""), ("0000000101/1/a/1", "")]
        ("0000000100" ++ "/") ("0000000101" ++ "/~")).map
        (fun p => (nidOfKey p.1, idOfKey p.1))) k)) = ["1/a/1/101"] :=
  ⟨⟨by decide, by decide⟩,
   (getIdsChanged_last_per_identity
     [("0000000100/1/a/1", ""), ("0000000101/1/a/1", "")] "100" (some "101")
     (by decide) (by decide)).1,
   by decide⟩


/-! ### The grouping loop of the grouped query -/

/-- The two JavaScript bound comparisons agree when their arguments are
swapped across the operator. -/
theorem jsLeOS_eq_jsGeSO (x : Option String) (t : String) :
    jsLeOS x t = jsGeSO t x := by
  cases x <;> rfl

/-- The first element surviving `dropWhile` fails the predicate. -/
theorem dropWhile_head_not {α : Type} (p : α → Bool) :
    ∀ (l : List α) {x : α}, (l.dropWhile p).head? = some x → p x = false := by
  intro l
  induction l with
  | nil =>
    intro x h
    simp [List.dropWhile] at h
  | cons a l2 ih =>
    intro x h
    rw [List.dropWhile_cons] at h
    by_cases hpa : p a = true
    · rw [if_pos hpa] at h
      exact ih h
    · rw [if_neg hpa] at h
      simp only [List.head?_cons, Option.some.injEq] at h
      simp only [Bool.not_eq_true] at hpa
      rw [← h]
      exact hpa

/-- The seen-set of the deduplication only matters through membership. -/
theorem dedupFirstAux_seen_congr {α : Type} [DecidableEq α] :
    ∀ (l s1 s2 : List α), (∀ y, y ∈ s1 ↔ y ∈ s2) →
      dedupFirstAux s1 l = dedupFirstAux s2 l := by
  intro l
  induction l with
  | nil => intro s1 s2 h; rfl
  | cons a l2 ih =>
    intro s1 s2 h
    by_cases ha : a ∈ s1
    · rw [dedupFirstAux, if_pos ha, dedupFirstAux, if_pos ((h a).mp ha)]
      exact ih s1 s2 h
    · rw [dedupFirstAux, if_neg ha, dedupFirstAux,
        if_neg (fun hc => ha ((h a).mpr hc))]
      congr 1
      apply ih
      intro y
      simp [h y]

/-- A seen element that never occurs again may be dropped from the
seen-set. -/
theorem dedupFirstAux_unseen {α : Type} [DecidableEq α] :
    ∀ (l : List α) (x : α) (seen : List α), x ∉ l →
      dedupFirstAux (x :: seen) l = dedupFirstAux seen l := by
  intro l
  induction l with
  | nil => intro x seen h; rfl
  | cons a l2 ih =>
    intro x seen h
    have hax : a ≠ x := fun hc => h (by simp [hc])
    have hxl : x ∉ l2 := fun hc => h (by simp [hc])
    by_cases ha : a ∈ seen
    · rw [dedupFirstAux, if_pos (by simp [ha]), dedupFirstAux, if_pos ha]
      exact ih x seen hxl
    · rw [dedupFirstAux, if_neg (by simp [ha, hax]), dedupFirstAux, if_neg ha]
      congr 1
      rw [dedupFirstAux_seen_congr l2 (a :: x :: seen) (x :: a :: seen)
        (fun y => by simp; tauto)]
      exact ih x (a :: seen) hxl

/-- Elements already seen contribute nothing to the deduplication. -/
theorem dedupFirstAux_skip {α : Type} [DecidableEq α] :
    ∀ (xs : List α) (seen ys : List α), (∀ x ∈ xs, x ∈ seen) →
      dedupFirstAux seen (xs ++ ys) = dedupFirstAux seen ys := by
  intro xs
  induction xs with
  | nil => intro seen ys h; rfl
  | cons a xs2 ih =>
    intro seen ys h
    rw [List.cons_append, dedupFirstAux, if_pos (h a (by simp))]
    exact ih seen ys (fun x hx => h x (by simp [hx]))

/-- Unfolding of `filterMap` over a cons through `Option.toList`. -/
theorem filterMap_cons_toList {α β : Type} (f : α → Option β) (a : α)
    (l : List α) :
    List.filterMap f (a :: l) = (f a).toList ++ List.filterMap f l := by
  cases h : f a <;> simp [List.filterMap_cons, h]

/-- The head chunk of the adjacent grouping is the head element together
with the run of equal projections following it. -/
theorem chunkBy_cons {α : Type} (f : α → String) (a : α) (l : List α) :
    chunkBy f (a :: l) =
      (a :: l.takeWhile (fun b => f b = f a)) ::
        chunkBy f (l.dropWhile (fun b => f b = f a)) := by
  induction l generalizing a with
  | nil => rfl
  | cons b l2 ih =>
    have ihb := ih b
    conv_lhs => rw [chunkBy]
    rw [ihb]
    by_cases hab : f a = f b
    · simp [List.takeWhile_cons, List.dropWhile_cons, hab]
    · have hba : ¬ f b = f a := fun h => hab h.symm
      simp [List.takeWhile_cons, List.dropWhile_cons, hab, hba, ihb]

/-- `chunkSpec` over a cons of a non-empty chunk. -/
theorem chunkSpec_cons (till : String) (e : String × Track)
    (es : List (String × Track)) (chs : List (List (String × Track))) :
    chunkSpec till ((e :: es) :: chs) =
      flushIf till (foldRepl till ⟨keyToDatum e.1, e.2⟩ es) ++
        chunkSpec till chs := by
  simp only [chunkSpec]
  rw [filterMap_cons_toList]
  have hemit : chunkEmit till (e :: es) =
      if jsLeOS (foldRepl till ⟨keyToDatum e.1, e.2⟩ es).id.blockNumber till
      then some (foldRepl till ⟨keyToDatum e.1, e.2⟩ es) else none := rfl
  rw [hemit, flushIf]
  by_cases h : jsLeOS (foldRepl till ⟨keyToDatum e.1, e.2⟩ es).id.blockNumber
      till = true
  · rw [if_pos h, if_pos h]
    rfl
  · rw [if_neg h, if_neg h]
    rfl

/-- Folding the replacement step leaves the last entry satisfying the
cutoff, or the start value when none does. -/
theorem foldRepl_getLast (till : String) (r : ReturnValue) :
    ∀ es : List (String × Track),
    foldRepl till r es =
      (((es.filter
          (fun x => jsGeSO till (keyToDatum x.1).blockNumber)).getLast?).elim r
        (fun x => (⟨keyToDatum x.1, x.2⟩ : ReturnValue))) := by
  intro es
  induction es using List.reverseRecOn with
  | nil => rfl
  | append_singleton es e ih =>
    simp only [foldRepl] at ih ⊢
    rw [List.foldl_append]
    simp only [List.foldl_cons, List.foldl_nil]
    rw [ih, List.filter_append]
    by_cases hq : jsGeSO till (keyToDatum e.1).blockNumber = true
    · rw [replStep, if_pos hq]
      have hone : List.filter
          (fun x => jsGeSO till (keyToDatum x.1).blockNumber) [e] = [e] := by
        simp [List.filter, hq]
      rw [hone, List.getLast?_concat]
      rfl
    · rw [replStep, if_neg hq]
      have hzero : List.filter
          (fun x => jsGeSO till (keyToDatum x.1).blockNumber) [e] = [] := by
        simp [List.filter, hq]
      rw [hzero, List.append_nil]

/-- The entry a non-empty chunk emits is the last of its entries that
satisfies the cutoff, if any. -/
theorem chunkEmit_getLast (till : String) (e : String × Track)
    (es : List (String × Track)) :
    chunkEmit till (e :: es) =
      (((e :: es).filter
          (fun x => jsGeSO till (keyToDatum x.1).blockNumber)).getLast?).map
        (fun x => (⟨keyToDatum x.1, x.2⟩ : ReturnValue)) := by
  have hemit : chunkEmit till (e :: es) =
      if jsLeOS (foldRepl till ⟨keyToDatum e.1, e.2⟩ es).id.blockNumber till
      then some (foldRepl till ⟨keyToDatum e.1, e.2⟩ es) else none := rfl
  rw [hemit, foldRepl_getLast, List.filter_cons]
  cases hlast : (es.filter
      (fun x => jsGeSO till (keyToDatum x.1).blockNumber)).getLast? with
  | some e2 =>
    have hmem : e2 ∈ es.filter
        (fun x => jsGeSO till (keyToDatum x.1).blockNumber) :=
      List.mem_of_mem_getLast? hlast
    have hq2 : jsGeSO till (keyToDatum e2.1).blockNumber = true := by
      have := (List.mem_filter.mp hmem).2
      simpa using this
    simp only [Option.elim]
    rw [if_pos (by rw [jsLeOS_eq_jsGeSO]; exact hq2)]
    by_cases hqe : jsGeSO till (keyToDatum e.1).blockNumber = true
    · rw [if_pos (by simpa using hqe)]
      have hcons : (e :: es.filter
          (fun x => jsGeSO till (keyToDatum x.1).blockNumber)).getLast? =
          some e2 := by
        rw [show e :: es.filter
            (fun x => jsGeSO till (keyToDatum x.1).blockNumber) =
            [e] ++ es.filter
            (fun x => jsGeSO till (keyToDatum x.1).blockNumber) from rfl,
          List.getLast?_append, hlast]
        rfl
      rw [hcons]
      rfl
    · rw [if_neg (by simpa using hqe), hlast]
      rfl
  | none =>
    have hnil : es.filter (fun x => jsGeSO till (keyToDatum x.1).blockNumber) =
        [] := by
      cases hfe : es.filter
          (fun x => jsGeSO till (keyToDatum x.1).blockNumber) with
      | nil => rfl
      | cons y ys =>
        rw [hfe] at hlast
        simp [List.getLast?_eq_getLast] at hlast
    simp only [Option.elim]
    rw [jsLeOS_eq_jsGeSO]
    by_cases hqe : jsGeSO till (keyToDatum e.1).blockNumber = true
    · rw [if_pos hqe, if_pos (by simpa using hqe), hnil]
      rfl
    · rw [if_neg hqe, if_neg (by simpa using hqe), hnil]
      rfl

/-- The `getMany` grouping loop, described by the head run of entries
sharing the tracked prefix followed by the adjacent grouping of the
remaining entries. -/
theorem getManyLoop_spec (till : String) :
    ∀ (es : List (String × Track)) (d : DatumQ) (r : ReturnValue),
    getManyLoop till d r es =
      flushIf till (foldRepl till r
        (es.takeWhile (fun e => pfxK e.1 = pfxD d))) ++
      chunkSpec till (chunkBy (fun e => pfxK e.1)
        (es.dropWhile (fun e => pfxK e.1 = pfxD d))) := by
  intro es
  induction es with
  | nil =>
    intro d r
    simp only [List.takeWhile_nil, List.dropWhile_nil]
    rw [show chunkBy (fun (e : String × Track) => pfxK e.1) [] = [] from rfl]
    rw [show foldRepl till r [] = r from rfl]
    rw [show chunkSpec till [] = [] from rfl, List.append_nil]
    rfl
  | cons e rest ih =>
    intro d r
    obtain ⟨k, v⟩ := e
    by_cases hpe : pfxD d = pfxD (keyToDatum k)
    · have h1 : getManyLoop till d r ((k, v) :: rest) =
          getManyLoop till (keyToDatum k) (replStep till r (k, v)) rest := by
        simp only [getManyLoop, replStep]
        rw [if_neg (show ¬(pfxD d ≠ pfxD (keyToDatum k)) from fun hc => hc hpe)]
        by_cases hq : jsGeSO till (keyToDatum k).blockNumber = true
        · rw [if_pos hq, if_pos hq]
        · rw [if_neg hq, if_neg hq]
      rw [h1, ih]
      simp [List.takeWhile_cons, List.dropWhile_cons, pfxK, hpe, foldRepl,
        List.foldl_cons]
    · have h1 : getManyLoop till d r ((k, v) :: rest) =
          flushIf till r ++
            getManyLoop till (keyToDatum k) ⟨keyToDatum k, v⟩ rest := by
        simp only [getManyLoop, flushIf]
        rw [if_pos (show pfxD d ≠ pfxD (keyToDatum k) from hpe)]
      have hPk : (decide (pfxK k = pfxD d)) = false := by
        simp only [pfxK, decide_eq_false_iff_not]
        exact fun h => hpe h.symm
      rw [h1, ih]
      simp only [List.takeWhile_cons, List.dropWhile_cons, hPk,
        Bool.false_eq_true, if_false]
      rw [show foldRepl till r [] = r from rfl]
      rw [chunkBy_cons, chunkSpec_cons]
      simp [pfxK]

/-- The `getMany` loop started on a scan's first entry produces exactly
the per-chunk results of the whole scan. -/
theorem getManyLoop_chunks (till : String) (k : String) (v : Track)
    (rest : List (String × Track)) :
    getManyLoop till (keyToDatum k) ⟨keyToDatum k, v⟩ rest =
      chunkSpec till (chunkBy (fun e => pfxK e.1) ((k, v) :: rest)) := by
  rw [getManyLoop_spec, chunkBy_cons, chunkSpec_cons]
  simp only [pfxK]


/-- A well-formed key lying between two well-formed keys of one identity
shares that identity prefix. -/
theorem pfx_between {k1 k2 k3 : String} (h1 : WFKeyB k1 = true)
    (h2 : WFKeyB k2 = true) (h3 : WFKeyB k3 = true)
    (hpe : pfxK k1 = pfxK k3) (h12 : strLe k1 k2 = true)
    (h23 : strLe k2 k3 = true) : pfxK k2 = pfxK k1 := by
  obtain ⟨c, a, t, bn, hk1, hc, ha, ht, hbn, _, _, _, _, _⟩ := wfKey_elim h1
  obtain ⟨c3, a3, t3, bn3, hk3, hc3, ha3, ht3, hbn3, _, _, _, _, _⟩ :=
    wfKey_elim h3
  obtain ⟨c2, a2, t2, bn2, hk2, hc2, ha2, ht2, hbn2, _, _, _, _, _⟩ :=
    wfKey_elim h2
  rw [hk1, pfxK_mkKey hc ha ht] at hpe ⊢
  rw [hk3, pfxK_mkKey hc3 ha3 ht3] at hpe
  obtain ⟨hec, hea, het⟩ := triple_eq hc ha ht hc3 ha3 ht3 hpe.symm
  have hk1b : k1 = (c ++ "/" ++ a ++ "/" ++ t ++ "/") ++ bn := by
    rw [hk1, mkKey_eq_append]
  have hk3b : k3 = (c ++ "/" ++ a ++ "/" ++ t ++ "/") ++ bn3 := by
    rw [hk3, mkKey_eq_append, hec, hea, het]
  rw [hk1b] at h12
  rw [hk3b] at h23
  obtain ⟨r, hk2r, _, _⟩ := strLe_between h12 h23
  have hk2b : k2 = mkKey c a t r := by
    rw [hk2r]
    exact (mkKey_eq_append c a t r).symm
  have hs1 : jsSplit k2 = c :: a :: t :: splitL r.data := by
    rw [hk2b]
    exact jsSplit_mkKey_parts hc ha ht r
  have hs2 : jsSplit k2 = [c2, a2, t2, bn2] := by
    rw [hk2]
    exact jsSplit_mkKey hc2 ha2 ht2 hbn2
  rw [hs2] at hs1
  have hcc : c2 = c ∧ a2 = a ∧ t2 = t ∧ [bn2] = splitL r.data := by
    simpa using hs1
  rw [hk2, pfxK_mkKey hc2 ha2 ht2, hcc.1, hcc.2.1, hcc.2.2.1]

/-- On a well-formed key the loop's cutoff comparison is the byte-order
comparison of the raw block segment against the bound. -/
theorem qual_eq_strLe {k : String} (hwf : WFKeyB k = true) (till : String) :
    jsGeSO till (keyToDatum k).blockNumber = strLe (bnK k) till := by
  obtain ⟨c, a, t, bn, hk, hc, ha, ht, hbn, _, _, _, _, _⟩ := wfKey_elim hwf
  rw [hk, keyToDatum_mkKey hc ha ht hbn, bnK_mkKey hc ha ht hbn]
  rfl

/-- Well-formed keys of one identity match the same query prefixes. -/
theorem matchB_pfx {k1 k2 : String} (h1 : WFKeyB k1 = true)
    (h2 : WFKeyB k2 = true) (hp : pfxK k1 = pfxK k2) (cq : String)
    (addr : Option String) :
    matchB cq addr k1 = matchB cq addr k2 := by
  obtain ⟨c, a, t, bn, hk1, hc, ha, ht, hbn, _, _, _, _, _⟩ := wfKey_elim h1
  obtain ⟨c2, a2, t2, bn2, hk2, hc2, ha2, ht2, hbn2, _, _, _, _, _⟩ :=
    wfKey_elim h2
  rw [hk1, pfxK_mkKey hc ha ht] at hp
  rw [hk2, pfxK_mkKey hc2 ha2 ht2] at hp
  obtain ⟨hec, hea, het⟩ := triple_eq hc2 ha2 ht2 hc ha ht hp
  rw [hk1, hk2]
  unfold matchB
  rw [jsSplit_mkKey hc ha ht hbn, jsSplit_mkKey hc2 ha2 ht2 hbn2, hec, hea]

/-- Byte order of two keys of one identity is the byte order of their
block segments. -/
theorem bn_le_of_key_le {k1 k2 : String} (h1 : WFKeyB k1 = true)
    (h2 : WFKeyB k2 = true) (hp : pfxK k1 = pfxK k2)
    (hk : strLe k1 k2 = true) : strLe (bnK k1) (bnK k2) = true := by
  obtain ⟨c, a, t, bn, hk1, hc, ha, ht, hbn, _, _, _, _, _⟩ := wfKey_elim h1
  obtain ⟨c2, a2, t2, bn2, hk2, hc2, ha2, ht2, hbn2, _, _, _, _, _⟩ :=
    wfKey_elim h2
  rw [hk1, pfxK_mkKey hc ha ht] at hp
  rw [hk2, pfxK_mkKey hc2 ha2 ht2] at hp
  obtain ⟨hec, hea, het⟩ := triple_eq hc2 ha2 ht2 hc ha ht hp
  rw [hk1, hk2, bnK_mkKey hc ha ht hbn, bnK_mkKey hc2 ha2 ht2 hbn2]
  rw [hk1, hk2, mkKey_eq_append, mkKey_eq_append, hec, hea, het,
    strLe_append_cancel] at hk
  exact hk

/-- Chunk-by-chunk description of the loop output over a sorted
well-formed scan: one optional contribution per distinct identity
prefix, in first-occurrence order, drawn from that prefix's entries. -/
theorem chunk_decompose (till : String) :
    ∀ (n : Nat) (ms : Store Track), ms.length ≤ n → sortedStore ms →
      (∀ p ∈ ms, WFKeyB p.1 = true) →
      chunkSpec till (chunkBy (fun e => pfxK e.1) ms) =
        (dedupFirstAux [] (ms.map (fun e => pfxK e.1))).filterMap
          (fun g => (((ms.filter (fun e => pfxK e.1 = g)).filter
              (fun e => jsGeSO till (keyToDatum e.1).blockNumber)).getLast?).map
            (fun e => (⟨keyToDatum e.1, e.2⟩ : ReturnValue))) := by
  intro n
  induction n with
  | zero =>
    intro ms hlen _ _
    have hnil : ms = [] := List.length_eq_zero.mp (Nat.le_zero.mp hlen)
    subst hnil
    rfl
  | succ n ih =>
    intro ms hlen hs hwf
    cases ms with
    | nil => rfl
    | cons a l =>
      have hsl : sortedStore l := (List.pairwise_cons.mp hs).2
      have halt : ∀ y ∈ l, strLt a.1 y.1 = true := (List.pairwise_cons.mp hs).1
      have hwl : ∀ p ∈ l, WFKeyB p.1 = true := fun p hp => hwf p (by simp [hp])
      have hwa : WFKeyB a.1 = true := hwf a (by simp)
      have hconti : ∀ e ∈ l.dropWhile (fun x => pfxK x.1 = pfxK a.1),
          ¬ (pfxK e.1 = pfxK a.1) := by
        intro e he hpe2
        cases hdw : l.dropWhile (fun x => pfxK x.1 = pfxK a.1) with
        | nil =>
          rw [hdw] at he
          simp at he
        | cons d dtl =>
          rw [hdw] at he
          have hdnot := dropWhile_head_not
            (fun (x : String × Track) => pfxK x.1 = pfxK a.1) l
            (x := d) (by rw [hdw]; rfl)
          have hdne : ¬ (pfxK d.1 = pfxK a.1) := by
            simpa using hdnot
          have hsubdw : List.Sublist (d :: dtl) l := by
            rw [← hdw]
            exact List.dropWhile_sublist _
          have hdl : d ∈ l := hsubdw.subset (by simp)
          have hel : e ∈ l := hsubdw.subset he
          have hsd : List.Pairwise (fun p q => strLt p.1 q.1 = true) (d :: dtl) :=
            hsl.sublist hsubdw
          have hde : strLe d.1 e.1 = true := by
            rcases List.mem_cons.mp he with rfl | he2
            · exact strLe_refl _
            · exact strLe_of_strLt ((List.pairwise_cons.mp hsd).1 e he2)
          have had : strLe a.1 d.1 = true := strLe_of_strLt (halt d hdl)
          exact hdne (pfx_between hwa (hwl d hdl) (hwl e hel) hpe2.symm had hde)
      have htw_all : List.filter (fun x => pfxK x.1 = pfxK a.1)
          (l.takeWhile (fun x => pfxK x.1 = pfxK a.1)) =
          l.takeWhile (fun x => pfxK x.1 = pfxK a.1) := by
        apply List.filter_eq_self.mpr
        intro x hx
        exact List.mem_takeWhile_imp
          (p := fun (y : String × Track) => decide (pfxK y.1 = pfxK a.1)) hx
      have hdw_none : List.filter (fun x => pfxK x.1 = pfxK a.1)
          (l.dropWhile (fun x => pfxK x.1 = pfxK a.1)) = [] := by
        apply List.filter_eq_nil_iff.mpr
        intro e he
        simpa using hconti e he
      have hfilt_tw : l.filter (fun x => pfxK x.1 = pfxK a.1) =
          l.takeWhile (fun x => pfxK x.1 = pfxK a.1) := by
        conv_lhs => rw [← List.takeWhile_append_dropWhile
          (p := fun (x : String × Track) => pfxK x.1 = pfxK a.1) (l := l)]
        rw [List.filter_append, htw_all, hdw_none, List.append_nil]
      have hfilt_head : (a :: l).filter (fun x => pfxK x.1 = pfxK a.1) =
          a :: l.takeWhile (fun x => pfxK x.1 = pfxK a.1) := by
        rw [List.filter_cons, if_pos (by simp), hfilt_tw]
      have hdedup : dedupFirstAux [] ((a :: l).map (fun e => pfxK e.1)) =
          pfxK a.1 :: dedupFirstAux []
            ((l.dropWhile (fun x => pfxK x.1 = pfxK a.1)).map
              (fun e => pfxK e.1)) := by
        rw [List.map_cons, dedupFirstAux, if_neg (by simp)]
        congr 1
        conv_lhs => rw [← List.takeWhile_append_dropWhile
          (p := fun (x : String × Track) => pfxK x.1 = pfxK a.1) (l := l)]
        rw [List.map_append,
          dedupFirstAux_skip _ _ _ (fun x hx => by
            obtain ⟨e, he, hxe⟩ := List.mem_map.mp hx
            have := List.mem_takeWhile_imp he
            simp only [decide_eq_true_eq] at this
            simp [← hxe, this])]
        exact dedupFirstAux_unseen _ _ _ (fun hc => by
          obtain ⟨e, he, hxe⟩ := List.mem_map.mp hc
          exact hconti e he hxe)
      have hfilt_other : ∀ g, g ∈ dedupFirstAux []
          ((l.dropWhile (fun x => pfxK x.1 = pfxK a.1)).map
            (fun e => pfxK e.1)) →
          (a :: l).filter (fun x => pfxK x.1 = g) =
            (l.dropWhile (fun x => pfxK x.1 = pfxK a.1)).filter
              (fun x => pfxK x.1 = g) := by
        intro g hg
        have hgmem : g ∈ (l.dropWhile (fun x => pfxK x.1 = pfxK a.1)).map
            (fun e => pfxK e.1) := ((mem_dedupFirstAux _ _).mp hg).1
        obtain ⟨e0, he0, hge⟩ := List.mem_map.mp hgmem
        have hgne : ¬ (pfxK a.1 = g) := by
          rw [← hge]
          exact fun hc => hconti e0 he0 hc.symm
        rw [List.filter_cons, if_neg (by simpa using hgne)]
        conv_lhs => rw [← List.takeWhile_append_dropWhile
          (p := fun (x : String × Track) => pfxK x.1 = pfxK a.1) (l := l)]
        rw [List.filter_append,
          List.filter_eq_nil_iff.mpr (fun x hx => by
            have := List.mem_takeWhile_imp hx
            simp only [decide_eq_true_eq] at this
            simp [this]
            exact fun hc => hgne (hc ▸ rfl)),
          List.nil_append]
      have hsub : List.Sublist (l.dropWhile (fun x => pfxK x.1 = pfxK a.1)) l :=
        List.dropWhile_sublist _
      have hlen2 : (l.dropWhile (fun x => pfxK x.1 = pfxK a.1)).length ≤ n := by
        have h1 := hsub.length_le
        have h2 : l.length + 1 ≤ n + 1 := by simpa using hlen
        omega
      have hih := ih (l.dropWhile (fun x => pfxK x.1 = pfxK a.1)) hlen2
        (hsl.sublist hsub) (fun p hp => hwl p (hsub.subset hp))
      rw [chunkBy_cons]
      rw [chunkSpec_cons, hih, hdedup, filterMap_cons_toList]
      congr 1
      · rw [hfilt_head, ← chunkEmit_getLast]
        have hemit : chunkEmit till
            (a :: l.takeWhile (fun x => pfxK x.1 = pfxK a.1)) =
            if jsLeOS (foldRepl till ⟨keyToDatum a.1, a.2⟩
                (l.takeWhile (fun x => pfxK x.1 = pfxK a.1))).id.blockNumber
                till
            then some (foldRepl till ⟨keyToDatum a.1, a.2⟩
                (l.takeWhile (fun x => pfxK x.1 = pfxK a.1)))
            else none := rfl
        rw [hemit, flushIf]
        by_cases h : jsLeOS (foldRepl till ⟨keyToDatum a.1, a.2⟩
            (l.takeWhile (fun x => pfxK x.1 = pfxK a.1))).id.blockNumber
            till = true
        · rw [if_pos h, if_pos h]
          rfl
        · rw [if_neg h, if_neg h]
          rfl
      · apply List.filterMap_congr
        intro g hg
        rw [hfilt_other g hg]


/-- Over a well-formed store the chunk decomposition of the scan equals
the declarative grouped-query description. -/
theorem getManySpec_eq_decomp (s : Store Track) (cq : String)
    (addr : Option String) (till : String)
    (hwf : ∀ p ∈ s, WFKeyB p.1 = true) :
    (dedupFirstAux [] ((s.filter (fun p => matchB cq addr p.1)).map
        (fun e => pfxK e.1))).filterMap
      (fun g => ((((s.filter (fun p => matchB cq addr p.1)).filter
          (fun e => pfxK e.1 = g)).filter
          (fun e => jsGeSO till (keyToDatum e.1).blockNumber)).getLast?).map
        (fun e => (⟨keyToDatum e.1, e.2⟩ : ReturnValue))) =
      getManySpec s cq addr till := by
  rw [getManySpec]
  apply List.filterMap_congr
  intro g hg
  have hgm : g ∈ (s.filter (fun p => matchB cq addr p.1)).map
      (fun e => pfxK e.1) := ((mem_dedupFirstAux _ _).mp hg).1
  obtain ⟨e0, he0, hge⟩ := List.mem_map.mp hgm
  have he0s : e0 ∈ s := (List.mem_filter.mp he0).1
  have he0m : matchB cq addr e0.1 = true := by
    simpa using (List.mem_filter.mp he0).2
  have hfeq : (s.filter (fun p => matchB cq addr p.1)).filter
      (fun e => pfxK e.1 = g) = s.filter (fun p => pfxK p.1 = g) := by
    rw [List.filter_filter]
    apply List.filter_congr
    intro p hp
    by_cases hpg : pfxK p.1 = g
    · have hm : matchB cq addr p.1 = true := by
        rw [matchB_pfx (hwf p hp) (hwf e0 he0s) (hpg.trans hge.symm) cq addr]
        exact he0m
      simp [hpg, hm]
    · simp [hpg]
  rw [hfeq]
  have hq : (s.filter (fun p => pfxK p.1 = g)).filter
      (fun e => jsGeSO till (keyToDatum e.1).blockNumber) =
      (s.filter (fun p => pfxK p.1 = g)).filter
        (fun p => strLe (bnK p.1) till) := by
    apply List.filter_congr
    intro p hp
    have hps : p ∈ s := (List.mem_filter.mp hp).1
    rw [qual_eq_strLe (hwf p hps) till]
  rw [hq]

/-- The loop applied to a non-empty prefix scan realises the declarative
grouped-query description. -/
theorem getMany_core (till : String) (s : Store Track) (cq : String)
    (addr : Option String) (hs : sortedStore s)
    (hwf : ∀ p ∈ s, WFKeyB p.1 = true) (k : String) (v : Track)
    (rest : List (String × Track))
    (hms : s.filter (fun p => matchB cq addr p.1) = (k, v) :: rest) :
    getManyLoop till (keyToDatum k) ⟨keyToDatum k, v⟩ rest =
      getManySpec s cq addr till := by
  rw [getManyLoop_chunks, ← hms]
  rw [chunk_decompose till (s.filter (fun p => matchB cq addr p.1)).length
    (s.filter (fun p => matchB cq addr p.1)) le_rfl (hs.filter _)
    (fun p hp => hwf p (List.mem_filter.mp hp).1)]
  exact getManySpec_eq_decomp s cq addr till hwf


/-- C2: amended contract of `DB.getMany`. Over a sorted well-formed
store, a chain-only or chain-plus-address query whose prefix matches at
least one stored key succeeds and returns, for each distinct identity in
first-occurrence (byte) order of the scan, the entry of that identity
with the greatest primary key in byte order among those whose raw
block-number STRING is lexicographically at most the cutoff string (the
sentinel 9007199254740991 when the cutoff is omitted); identities with
no such entry contribute nothing, each contributing identity appears
exactly once, and the per-identity choice is maximal in the raw-string
block order, not the numeric order claimed by the specification. -/
theorem getMany_grouped (s : Store Track) (cq : String) (addr : Option String)
    (cutoff : Option String) (hs : sortedStore s)
    (hwf : ∀ p ∈ s, WFKeyB p.1 = true) (hcq : slashFreeB cq = true)
    (haddr : ∀ aq, addr = some aq → slashFreeB aq = true ∧ aq ≠ "")
    (hne : s.filter (fun p => matchB cq addr p.1) ≠ []) :
    getMany s ⟨some cq, addr, none, cutoff⟩ =
      .ok (getManySpec s cq addr
        (if truthy cutoff then jsStr cutoff else "9007199254740991")) ∧
    (dedupFirstAux [] ((s.filter (fun p => matchB cq addr p.1)).map
      (fun p => pfxK p.1))).Nodup ∧
    ∀ r ∈ getManySpec s cq addr
        (if truthy cutoff then jsStr cutoff else "9007199254740991"),
      ∀ p ∈ s, pfxK p.1 = pfxD r.id →
        strLe (bnK p.1)
          (if truthy cutoff then jsStr cutoff else "9007199254740991") = true →
        strLe (bnK p.1) (jsStr r.id.blockNumber) = true := by
  refine ⟨?_, dedupFirstAux_nodup _ _, ?_⟩
  · cases hms : s.filter (fun p => matchB cq addr p.1) with
    | nil => exact absurd hms hne
    | cons e rest =>
      obtain ⟨k, v⟩ := e
      cases addr with
      | none =>
        rw [getMany_branch_chain, getMany_filter_chain hwf hcq, hms]
        exact congrArg Except.ok (getMany_core
          (if truthy cutoff then jsStr cutoff else "9007199254740991")
          s cq none hs hwf k v rest hms)
      | some aq =>
        rw [getMany_branch_addr s cq aq cutoff (haddr aq rfl).2,
          getMany_filter_addr hwf hcq (haddr aq rfl).1, hms]
        exact congrArg Except.ok (getMany_core
          (if truthy cutoff then jsStr cutoff else "9007199254740991")
          s cq (some aq) hs hwf k v rest hms)
  · intro r hr p hp hpfx hble
    obtain ⟨g, hgmem, hsome⟩ := List.mem_filterMap.mp hr
    obtain ⟨e, hlast, hre⟩ := Option.map_eq_some'.mp hsome
    have hemem : e ∈ (s.filter (fun q => pfxK q.1 = g)).filter
        (fun q => strLe (bnK q.1)
          (if truthy cutoff then jsStr cutoff else "9007199254740991")) :=
      List.mem_of_mem_getLast? hlast
    have hes : e ∈ s := (List.mem_filter.mp ((List.mem_filter.mp hemem).1)).1
    have hepfx : pfxK e.1 = g := by
      simpa using (List.mem_filter.mp ((List.mem_filter.mp hemem).1)).2
    have hrid : r.id = keyToDatum e.1 := by
      rw [← hre]
    have hpfx2 : pfxK p.1 = pfxK e.1 := by
      rw [hpfx, hrid]
      rfl
    have hpg : p ∈ (s.filter (fun q => pfxK q.1 = g)).filter
        (fun q => strLe (bnK q.1)
          (if truthy cutoff then jsStr cutoff else "9007199254740991")) := by
      apply List.mem_filter.mpr
      refine ⟨List.mem_filter.mpr ⟨hp, by simp [hpfx2.trans hepfx]⟩, ?_⟩
      simpa using hble
    have hsf : List.Pairwise (fun p q => strLt p.1 q.1 = true)
        ((s.filter (fun q => pfxK q.1 = g)).filter
          (fun q => strLe (bnK q.1)
            (if truthy cutoff then jsStr cutoff else "9007199254740991"))) :=
      (hs.filter _).filter _
    rcases pairwise_getLast_max hsf hlast p hpg with heq | hlt
    · rw [heq, hrid]
      exact strLe_refl _
    · rw [hrid]
      exact bn_le_of_key_le (hwf p hp) (hwf e hes) hpfx2 (strLe_of_strLt hlt)


/-- Counterexample to the numeric reading of the grouped query: with
versions of one identity at blocks 9 and 10 and no cutoff, getMany
returns the block-9 entry (greatest block-number string in byte order),
not the block-10 entry (greatest block number numerically). -/
theorem getMany_numeric_counterexample :
    getMany [("1/a/1/10", "v10"), ("1/a/1/9", "v9")]
        ⟨some "1", some "a", none, none⟩ =
      .ok [⟨⟨some "1", some "a", some "1", some "9"⟩, "v9"⟩] ∧
    ¬ (getMany [("1/a/1/10", "v10"), ("1/a/1/9", "v9")]
        ⟨some "1", some "a", none, none⟩ =
      .ok [⟨⟨some "1", some "a", some "1", some "10"⟩, "v10"⟩]) := by decide

/-- Witness instance of the amended grouped-query contract on the
specification's own scenario store: without a cutoff the query yields
the A, B2 and C entries, with cutoff 110 the A and B entries. -/
theorem getMany_grouped_witness :
    (sortedStore [("1/0xb8/1/110", "A"), ("1/0xb8/2/110", "B"),
        ("1/0xb8/2/120", "B2"), ("1/0xb8/3/130", "C"),
        ("1/0xc8/3/110", "D")] ∧
      List.filter (fun p => matchB "1" (some "0xb8") p.1)
        [("1/0xb8/1/110", "A"), ("1/0xb8/2/110", "B"), ("1/0xb8/2/120", "B2"),
          ("1/0xb8/3/130", "C"), ("1/0xc8/3/110", "D")] ≠ []) ∧
    getMany [("1/0xb8/1/110", "A"), ("1/0xb8/2/110", "B"),
        ("1/0xb8/2/120", "B2"), ("1/0xb8/3/130", "C"), ("1/0xc8/3/110", "D")]
        ⟨some "1", some "0xb8", none, none⟩ =
      .ok (getManySpec [("1/0xb8/1/110", "A"), ("1/0xb8/2/110", "B"),
        ("1/0xb8/2/120", "B2"), ("1/0xb8/3/130", "C"), ("1/0xc8/3/110", "D")]
        "1" (some "0xb8") "9007199254740991") ∧
    getManySpec [("1/0xb8/1/110", "A"), ("1/0xb8/2/110", "B"),
        ("1/0xb8/2/120", "B2"), ("1/0xb8/3/130", "C"), ("1/0xc8/3/110", "D")]
        "1" (some "0xb8") "9007199254740991" =
      [⟨⟨some "1", some "0xb8", some "1", some "110"⟩, "A"⟩,
       ⟨⟨some "1", some "0xb8", some "2", some "120"⟩, "B2"⟩,
       ⟨⟨some "1", some "0xb8", some "3", some "130"⟩, "C"⟩] ∧
    getMany [("1/0xb8/1/110", "A"), ("1/0xb8/2/110", "B"),
        ("1/0xb8/2/120", "B2"), ("1/0xb8/3/130", "C"), ("1/0xc8/3/110", "D")]
        ⟨some "1", some "0xb8", none, some "110"⟩ =
      .ok (getManySpec [("1/0xb8/1/110", "A"), ("1/0xb8/2/110", "B"),
        ("1/0xb8/2/120", "B2"), ("1/0xb8/3/130", "C"), ("1/0xc8/3/110", "D")]
        "1" (some "0xb8") "110") ∧
    getManySpec [("1/0xb8/1/110", "A"), ("1/0xb8/2/110", "B"),
        ("1/0xb8/2/120", "B2"), ("1/0xb8/3/130", "C"), ("1/0xc8/3/110", "D")]
        "1" (some "0xb8") "110" =
      [⟨⟨some "1", some "0xb8", some "1", some "110"⟩, "A"⟩,
       ⟨⟨some "1", some "0xb8", some "2", some "110"⟩, "B"⟩] :=
  ⟨⟨by decide, by decide⟩,
   (getMany_grouped [("1/0xb8/1/110", "A"), ("1/0xb8/2/110", "B"),
       ("1/0xb8/2/120", "B2"), ("1/0xb8/3/130", "C"), ("1/0xc8/3/110", "D")]
       "1" (some "0xb8") none (by decide) (by decide) (by decide)
       (fun aq h => by cases h; exact ⟨by decide, by decide⟩)
       (by decide)).1,
   by decide,
   (getMany_grouped [("1/0xb8/1/110", "A"), ("1/0xb8/2/110", "B"),
       ("1/0xb8/2/120", "B2"), ("1/0xb8/3/130", "C"), ("1/0xc8/3/110", "D")]
       "1" (some "0xb8") (some "110") (by decide) (by decide) (by decide)
       (fun aq h => by cases h; exact ⟨by decide, by decide⟩)
       (by decide)).1,
   by decide⟩


end Crawler
